import Mathlib

/-!
# IPCache metadata layer: a shallow embedding of `pkg/ipcache/metadata.go`

This file embeds the data model and the operations of the ipcache metadata
layer (prefix-to-label metadata store with label injection) and proves the
functional-correctness claims about it.

The embedding follows the Go source of `pkg/ipcache/metadata.go`.  Supporting
packages of the repository that are not part of the provided sources
(`pkg/labels`, `pkg/ipcache/prefixinfo`, `pkg/container/bitlpm`,
`pkg/clustermesh/types`) are modelled from the specification; each such
definition carries a doc comment explaining what is modelled.
-/

set_option maxRecDepth 10000

namespace IPCacheMeta

/-! ## Addresses and prefixes (model of `net/netip` as used by the code) -/

/-- Model of `netip.Addr`: an IPv4 address (32-bit number), an IPv6 address
(128-bit number), or the invalid zero value. -/
inductive Addr where
  | invalid
  | v4 (a : Nat)
  | v6 (a : Nat)
deriving DecidableEq, Repr

namespace Addr

/-- `netip.Addr.BitLen`: 32 for IPv4, 128 for IPv6, 0 for the zero value. -/
def bitLen : Addr → Nat
  | .invalid => 0
  | .v4 _ => 32
  | .v6 _ => 128

/-- `netip.Addr.Is4`: true exactly for 4-byte addresses (not for
IPv4-mapped IPv6 addresses). -/
def is4 : Addr → Bool
  | .v4 _ => true
  | _ => false

/-- `netip.Addr.Unmap`: converts an IPv4-mapped IPv6 address
(`::ffff:a.b.c.d`) into the corresponding IPv4 address; other addresses are
returned unchanged. -/
def unmap : Addr → Addr
  | .v6 a => if a / 2 ^ 32 = 0xffff then .v4 (a % 2 ^ 32) else .v6 a
  | a => a

/-- Keep only the top `b` bits of a `w`-bit number, zeroing the rest. -/
def maskBits (a w b : Nat) : Nat := a / 2 ^ (w - b) * 2 ^ (w - b)

/-- Zero out all but the top `b` bits of an address. -/
def mask (a : Addr) (b : Nat) : Addr :=
  match a with
  | .invalid => .invalid
  | .v4 x => .v4 (maskBits x 32 b)
  | .v6 x => .v6 (maskBits x 128 b)

end Addr

/-- Model of `netip.Prefix`: an address plus a bit count.  The zero value has
an invalid address and `bits = -1` (as `netip.Prefix.Bits` reports). -/
structure IPPrefix where
  addr : Addr
  bits : Int
deriving DecidableEq, Repr

namespace IPPrefix

/-- The zero `netip.Prefix` value. -/
def zero : IPPrefix := ⟨.invalid, -1⟩

/-- `netip.Prefix.IsValid`: the address is valid and the bit count lies in
`[0, addr.BitLen]`. -/
def isValid (p : IPPrefix) : Bool :=
  p.addr != .invalid && 0 ≤ p.bits && p.bits ≤ (p.addr.bitLen : Int)

/-- `netip.Addr.Prefix(b)`: the prefix of the address keeping the top `b`
bits; errors (modelled as `none`) when `b` is out of range. -/
def addrPrefix (a : Addr) (b : Int) : Option IPPrefix :=
  if 0 ≤ b ∧ b ≤ (a.bitLen : Int) ∧ a ≠ .invalid then
    some ⟨a.mask b.toNat, b⟩
  else none

/-- `netip.Prefix.IsSingleIP`: valid and the bit count equals the address
bit length. -/
def isSingleIP (p : IPPrefix) : Bool :=
  p.isValid && p.bits == (p.addr.bitLen : Int)

/-- Modelled from the spec: the string rendering of a prefix
(`netip.Prefix.String`, not in the provided sources).  Only injectivity-style
facts matter for the claims; the exact format is immaterial. -/
def render (p : IPPrefix) : String :=
  (match p.addr with
    | .invalid => "ip:invalid"
    | .v4 a => "ip4:" ++ toString a
    | .v6 a => "ip6:" ++ toString a) ++ "/" ++ toString p.bits

end IPPrefix

/-- Model of `cmtypes.PrefixCluster`: a prefix together with a cluster ID. -/
structure PrefixCluster where
  pfx : IPPrefix
  clusterID : Nat
deriving DecidableEq, Repr

namespace PrefixCluster

/-- `cmtypes.PrefixCluster.IsSingleIP`. -/
def isSingleIP (pc : PrefixCluster) : Bool := pc.pfx.isSingleIP

end PrefixCluster

/-- `canonicalPrefix` (metadata.go): the canonical form of a prefix-cluster
key.  Invalid prefixes are passed through unchanged; otherwise the address is
unmapped and its host bits are zeroed, errors again passing the input
through. -/
def canonicalPrefix (pc : PrefixCluster) : PrefixCluster :=
  if ¬ pc.pfx.isValid then pc
  else
    match IPPrefix.addrPrefix pc.pfx.addr.unmap pc.pfx.bits with
    | none => pc
    | some p => ⟨p, pc.clusterID⟩

/-! ## Labels (model of `pkg/labels`, which is not in the provided sources) -/

/-- Modelled from the spec: one label of `pkg/labels`, a key/value pair
tagged with a label source namespace (`reserved`, `cidr`, `fqdn`,
`cidrgroup`, `node`, `k8s`, ...). -/
structure Label where
  key : String
  value : String
  source : String
deriving DecidableEq, Repr

/-- Modelled from the spec: `labels.Labels`, a map keyed by the label key.
Represented as a list of labels; all operations treat the first entry with a
given key as the map entry for that key. -/
abbrev Labels := List Label

namespace Labels

/-- Map lookup `l[k]`. -/
def lookupKey (l : Labels) (k : String) : Option Label :=
  (l : List Label).find? (fun e => e.key = k)

/-- Whether the map has an entry for key `k`. -/
def containsKey (l : Labels) (k : String) : Bool :=
  (l.lookupKey k).isSome

/-- Map assignment `l[lbl.Key] = lbl`: replaces the entry for that key if
present, otherwise adds it. -/
def setLabel (l : Labels) (lbl : Label) : Labels :=
  if l.containsKey lbl.key then
    (l : List Label).map (fun e => if e.key = lbl.key then lbl else e)
  else (l : List Label) ++ [lbl]

/-- `Labels.Remove(from)`: deletes the keys of `from` from the map. -/
def removeLabels (l : Labels) (from_ : Labels) : Labels :=
  (l : List Label).filter (fun e => ¬ from_.containsKey e.key)

/-- `Labels.RemoveFromSource(src)`: deletes every label whose source is
`src`. -/
def removeFromSource (l : Labels) (src : String) : Labels :=
  (l : List Label).filter (fun e => e.source ≠ src)

/-- `Labels.MergeLabels(from)`: assigns every entry of `from` into the
receiver. -/
def mergeLabels (l : Labels) (from_ : Labels) : Labels :=
  (from_ : List Label).foldl setLabel l

/-- `Labels.Has(lbl)`: the entry for `lbl.Key` exists and has the same
source. -/
def hasLabel (l : Labels) (lbl : Label) : Bool :=
  match l.lookupKey lbl.key with
  | some e => e.source = lbl.source
  | none => false

/-- `Labels.HasSource(src)`: some label has the given source. -/
def hasSource (l : Labels) (src : String) : Bool :=
  (l : List Label).any (fun e => e.source = src)

/-- The number of entries, `len(l)`. -/
def size (l : Labels) : Nat := (l : List Label).length

end Labels

/-- The label source namespaces used by `resolveLabels`. -/
def cidrSource : String := "cidr"
def fqdnSource : String := "fqdn"
def cidrGroupSource : String := "cidrgroup"
def nodeSource : String := "node"
def reservedSource : String := "reserved"

/-- `labels.LabelHost`'s single label `reserved:host`. -/
def labelHost : Label := ⟨"host", "", reservedSource⟩
/-- `reserved:remote-node`. -/
def labelRemoteNode : Label := ⟨"remote-node", "", reservedSource⟩
/-- `reserved:health`. -/
def labelHealth : Label := ⟨"health", "", reservedSource⟩
/-- `reserved:ingress`. -/
def labelIngress : Label := ⟨"ingress", "", reservedSource⟩
/-- `reserved:world`. -/
def labelWorld : Label := ⟨"world", "", reservedSource⟩
/-- `reserved:world-ipv4`. -/
def labelWorldIPv4 : Label := ⟨"world-ipv4", "", reservedSource⟩
/-- `reserved:world-ipv6`. -/
def labelWorldIPv6 : Label := ⟨"world-ipv6", "", reservedSource⟩
/-- `reserved:kube-apiserver`. -/
def labelKubeAPIServer : Label := ⟨"kube-apiserver", "", reservedSource⟩

namespace Labels

/-- `Labels.HasHostLabel`. -/
def hasHostLabel (l : Labels) : Bool := l.hasLabel labelHost
/-- `Labels.HasRemoteNodeLabel`. -/
def hasRemoteNodeLabel (l : Labels) : Bool := l.hasLabel labelRemoteNode
/-- `Labels.HasHealthLabel`. -/
def hasHealthLabel (l : Labels) : Bool := l.hasLabel labelHealth
/-- `Labels.HasIngressLabel`. -/
def hasIngressLabel (l : Labels) : Bool := l.hasLabel labelIngress
/-- `Labels.HasWorldLabel`. -/
def hasWorldLabel (l : Labels) : Bool := l.hasLabel labelWorld
/-- `Labels.HasKubeAPIServerLabel`. -/
def hasKubeAPIServerLabel (l : Labels) : Bool := l.hasLabel labelKubeAPIServer

end Labels

/-- Modelled from the spec: `labels.GetCIDRLabels(prefix)`, used by
`resolveLabels` to "inject `cidr:<prefix>` as a fallback" when all labels
were removed (the labels package is not in the provided sources). -/
def getCIDRLabels (p : IPPrefix) : Labels :=
  ([⟨p.render, "", cidrSource⟩] : List Label)

/-- The daemon configuration options consulted by the metadata layer
(`option.Config`), passed explicitly to the pure embedding. -/
structure Config where
  policyCIDRMatchesNodes : Bool
  perNodeLabelsEnabled : Bool
  enableIPv4 : Bool
  enableIPv6 : Bool
deriving DecidableEq, Repr

/-- Modelled from the spec: `labels.AddWorldLabel(addr)` — non-in-cluster
prefixes get `reserved:world`, or the v4/v6 variant matching the address
family when both address families are enabled. -/
def addWorldLabel (cfg : Config) (l : Labels) (a : Addr) : Labels :=
  if ¬ (cfg.enableIPv4 && cfg.enableIPv6) then l.setLabel labelWorld
  else if a.is4 then l.setLabel labelWorldIPv4
  else l.setLabel labelWorldIPv6

/-! ## `resolveLabels` (metadata.go) -/

/-- The `isNode` test of `resolveLabels`: the labels carry
`reserved:remote-node` or `reserved:host`. -/
def isNodeLabels (l : Labels) : Bool :=
  l.hasRemoteNodeLabel || l.hasHostLabel

/-- The `isInCluster` test of `resolveLabels`: a node, or carrying
`reserved:health` or `reserved:ingress`. -/
def isInClusterLabels (l : Labels) : Bool :=
  isNodeLabels l || l.hasHealthLabel || l.hasIngressLabel

/-- `resolveLabels` (metadata.go): applies the prefix-level label
invariants.  In-cluster entities lose `reserved:world*` and (unless a node
with `PolicyCIDRMatchesNodes`) all `cidr:`/`fqdn:`/`cidrgroup:` labels;
`node:`-source labels are kept only for nodes with per-node labels enabled;
an empty result falls back to `cidr:<prefix>`; non-in-cluster prefixes get a
world label. -/
def resolveLabels (cfg : Config) (lbls : Labels) (pc : PrefixCluster) : Labels :=
  let isNode := isNodeLabels lbls
  let isInCluster := isInClusterLabels lbls
  let l1 :=
    if isInCluster then
      ((lbls.removeLabels ([labelWorld] : List Label)).removeLabels
          ([labelWorldIPv4] : List Label)).removeLabels ([labelWorldIPv6] : List Label)
    else lbls
  let l2 :=
    if isInCluster && !(isNode && cfg.policyCIDRMatchesNodes) then
      ((l1.removeFromSource cidrSource).removeFromSource fqdnSource).removeFromSource
        cidrGroupSource
    else l1
  let l3 :=
    if !(isNode && cfg.perNodeLabelsEnabled) then l2.removeFromSource nodeSource
    else l2
  let l4 := if l3.size = 0 then (getCIDRLabels pc.pfx).foldl Labels.setLabel l3 else l3
  if !isInCluster then addWorldLabel cfg l4 pc.pfx.addr else l4

/-! ## Basic lemmas about label-map operations -/

namespace Labels

theorem lookupKey_eq_none (l : Labels) (k : String) :
    l.lookupKey k = none ↔ ∀ e ∈ l, e.key ≠ k := by
  simp [lookupKey, List.find?_eq_none]

theorem mem_of_lookupKey {l : Labels} {k : String} {e : Label}
    (h : l.lookupKey k = some e) : e ∈ l ∧ e.key = k := by
  refine ⟨List.mem_of_find?_eq_some h, ?_⟩
  have h2 := List.find?_some h
  simpa using h2

theorem containsKey_of_mem {l : Labels} {e : Label} (h : e ∈ l) :
    l.containsKey e.key = true := by
  simp only [containsKey, lookupKey, Option.isSome_iff_exists]
  have : ∃ x, l.find? (fun f => f.key = e.key) = some x := by
    rw [← Option.isSome_iff_exists]
    rw [List.find?_isSome]
    exact ⟨e, h, by simp⟩
  exact this

theorem mem_setLabel_of_mem {l : Labels} {e lbl : Label} (he : e ∈ l)
    (hk : e.key ≠ lbl.key) : e ∈ l.setLabel lbl := by
  unfold setLabel
  split
  · exact List.mem_map.mpr ⟨e, he, by simp [hk]⟩
  · exact List.mem_append_left _ he

theorem self_mem_setLabel (l : Labels) (lbl : Label) : ∃ e ∈ l.setLabel lbl,
    e.key = lbl.key := by
  unfold setLabel
  split
  · rename_i h
    simp only [containsKey, lookupKey, Option.isSome_iff_exists] at h
    obtain ⟨x, hx⟩ := h
    have hmem := List.mem_of_find?_eq_some hx
    have hxk : x.key = lbl.key := by simpa using List.find?_some hx
    exact ⟨lbl, List.mem_map.mpr ⟨x, hmem, by simp [hxk]⟩, rfl⟩
  · exact ⟨lbl, List.mem_append_right _ (by simp), rfl⟩

theorem containsKey_setLabel_of (l : Labels) (lbl : Label) {k : String}
    (h : l.containsKey k = true) : (l.setLabel lbl).containsKey k = true := by
  simp only [containsKey, lookupKey, Option.isSome_iff_exists] at h ⊢
  obtain ⟨x, hx⟩ := h
  have hmem := List.mem_of_find?_eq_some hx
  have hxk : x.key = k := by simpa using List.find?_some hx
  by_cases hkl : k = lbl.key
  · obtain ⟨e, hel, hek⟩ := l.self_mem_setLabel lbl
    have : (l.setLabel lbl).find? (fun f => f.key = k) |>.isSome := by
      rw [List.find?_isSome]
      exact ⟨e, hel, by simp [hek, hkl]⟩
    rwa [Option.isSome_iff_exists] at this
  · have hmem2 : x ∈ l.setLabel lbl := l.mem_setLabel_of_mem hmem (by
      rw [hxk]; exact hkl)
    have : (l.setLabel lbl).find? (fun f => f.key = k) |>.isSome := by
      rw [List.find?_isSome]
      exact ⟨x, hmem2, by simp [hxk]⟩
    rwa [Option.isSome_iff_exists] at this

end Labels

/-- Every prefix rendering starts with the character `i`, so it is distinct
from the reserved world label keys. -/
theorem render_head (p : IPPrefix) : p.render.data.head? = some 'i' := by
  unfold IPPrefix.render
  cases p.addr <;> simp [String.data_append]

theorem render_ne_world (p : IPPrefix) :
    p.render ≠ "world" ∧ p.render ≠ "world-ipv4" ∧ p.render ≠ "world-ipv6" := by
  refine ⟨?_, ?_, ?_⟩ <;>
    · intro h
      have h2 := congrArg (fun s => s.data.head?) h
      simp only at h2
      rw [render_head] at h2
      simp at h2

theorem containsKey_singleton (x : Label) (k : String) :
    Labels.containsKey [x] k = decide (x.key = k) := by
  simp [Labels.containsKey, Labels.lookupKey, List.find?]
  split <;> simp_all

/-- A held label provides a member of the set with its key and source. -/
theorem exists_of_hasLabel {lbls : Labels} {lbl : Label}
    (hl : lbls.hasLabel lbl = true) :
    ∃ e ∈ lbls, e.source = lbl.source ∧ e.key = lbl.key := by
  unfold Labels.hasLabel at hl
  cases hfind : lbls.lookupKey lbl.key with
  | none => rw [hfind] at hl; simp at hl
  | some e =>
    rw [hfind] at hl
    obtain ⟨hmem, hkey⟩ := Labels.mem_of_lookupKey hfind
    exact ⟨e, hmem, by simpa using hl, hkey⟩

/-- If the label set marks the prefix as in-cluster, some label is a
reserved node/health/ingress label. -/
theorem exists_reserved_of_inCluster {lbls : Labels}
    (h : isInClusterLabels lbls = true) :
    ∃ e ∈ lbls, e.source = reservedSource ∧
      (e.key = "host" ∨ e.key = "remote-node" ∨ e.key = "health" ∨
        e.key = "ingress") := by
  have get : ∀ lbl : Label, lbls.hasLabel lbl = true →
      ∃ e ∈ lbls, e.source = lbl.source ∧ e.key = lbl.key :=
    fun _ hl => exists_of_hasLabel hl
  unfold isInClusterLabels isNodeLabels at h
  simp only [Bool.or_eq_true] at h
  rcases h with ((h | h) | h) | h
  · obtain ⟨e, hm, hs, hk⟩ := get labelRemoteNode h
    exact ⟨e, hm, hs, Or.inr (Or.inl hk)⟩
  · obtain ⟨e, hm, hs, hk⟩ := get labelHost h
    exact ⟨e, hm, hs, Or.inl hk⟩
  · obtain ⟨e, hm, hs, hk⟩ := get labelHealth h
    exact ⟨e, hm, hs, Or.inr (Or.inr (Or.inl hk))⟩
  · obtain ⟨e, hm, hs, hk⟩ := get labelIngress h
    exact ⟨e, hm, hs, Or.inr (Or.inr (Or.inr hk))⟩

theorem mem_removeLabels {l fl : Labels} {f : Label} :
    f ∈ l.removeLabels fl ↔ f ∈ l ∧ fl.containsKey f.key = false := by
  simp [Labels.removeLabels, List.mem_filter]

theorem mem_removeFromSource {l : Labels} {src : String} {f : Label} :
    f ∈ l.removeFromSource src ↔ f ∈ l ∧ f.source ≠ src := by
  simp [Labels.removeFromSource, List.mem_filter]

/-- In the in-cluster case, `resolveLabels` returns a non-empty subset of the
input: the reserved marker label survives all strip phases, no world-keyed
label remains, and (once CIDR-equivalents are stripped) no label of the
`cidr:`/`fqdn:`/`cidrgroup:` sources remains. -/
theorem rl_inCluster_shape (cfg : Config) (lbls : Labels) (pc : PrefixCluster)
    (h : isInClusterLabels lbls = true) :
    resolveLabels cfg lbls pc ≠ [] ∧
    (∀ f ∈ resolveLabels cfg lbls pc,
        f ∈ lbls ∧ f.key ≠ "world" ∧ f.key ≠ "world-ipv4" ∧
          f.key ≠ "world-ipv6") ∧
    ((isNodeLabels lbls && cfg.policyCIDRMatchesNodes) = false →
      ∀ f ∈ resolveLabels cfg lbls pc,
        f.source ≠ cidrSource ∧ f.source ≠ fqdnSource ∧
          f.source ≠ cidrGroupSource) := by
  obtain ⟨e, he, hesrc, hekey⟩ := exists_reserved_of_inCluster h
  have hekw : e.key ≠ "world" ∧ e.key ≠ "world-ipv4" ∧ e.key ≠ "world-ipv6" := by
    rcases hekey with hk | hk | hk | hk <;> rw [hk] <;>
      exact ⟨by decide, by decide, by decide⟩
  have hsrc1 : e.source ≠ cidrSource := by rw [hesrc]; decide
  have hsrc2 : e.source ≠ fqdnSource := by rw [hesrc]; decide
  have hsrc3 : e.source ≠ cidrGroupSource := by rw [hesrc]; decide
  have hsrc4 : e.source ≠ nodeSource := by rw [hesrc]; decide
  -- the survivor after the world strip
  have he1 : e ∈ ((lbls.removeLabels ([labelWorld] : Labels)).removeLabels
      ([labelWorldIPv4] : Labels)).removeLabels ([labelWorldIPv6] : Labels) := by
    refine mem_removeLabels.mpr ⟨mem_removeLabels.mpr
      ⟨mem_removeLabels.mpr ⟨he, ?_⟩, ?_⟩, ?_⟩
    · simp only [containsKey_singleton, labelWorld]
      exact decide_eq_false fun hh => hekw.1 hh.symm
    · simp only [containsKey_singleton, labelWorldIPv4]
      exact decide_eq_false fun hh => hekw.2.1 hh.symm
    · simp only [containsKey_singleton, labelWorldIPv6]
      exact decide_eq_false fun hh => hekw.2.2 hh.symm
  simp only [resolveLabels, h, Bool.true_and, if_true, Bool.not_true,
    Bool.false_eq_true, if_false, ite_false, ite_true]
  set L1 := ((lbls.removeLabels ([labelWorld] : Labels)).removeLabels
    ([labelWorldIPv4] : Labels)).removeLabels ([labelWorldIPv6] : Labels)
    with hL1
  set L2 := if !(isNodeLabels lbls && cfg.policyCIDRMatchesNodes) then
      ((L1.removeFromSource cidrSource).removeFromSource
        fqdnSource).removeFromSource cidrGroupSource
    else L1 with hL2
  set L3 := if !(isNodeLabels lbls && cfg.perNodeLabelsEnabled) then
      L2.removeFromSource nodeSource
    else L2 with hL3
  have he2 : e ∈ L2 := by
    rw [hL2]; split
    · exact mem_removeFromSource.mpr ⟨mem_removeFromSource.mpr
        ⟨mem_removeFromSource.mpr ⟨he1, hsrc1⟩, hsrc2⟩, hsrc3⟩
    · exact he1
  have he3 : e ∈ L3 := by
    rw [hL3]; split
    · exact mem_removeFromSource.mpr ⟨he2, hsrc4⟩
    · exact he2
  have hL3ne : L3 ≠ [] := List.ne_nil_of_mem he3
  have hsz : ¬ (L3.size = 0) := by
    intro h0
    rw [Labels.size, List.length_eq_zero] at h0
    exact hL3ne h0
  rw [if_neg hsz]
  have hmemL1 : ∀ f ∈ L3, f ∈ L1 := by
    intro f hf
    rw [hL3] at hf
    have hf2 : f ∈ L2 := by
      split at hf
      · exact (mem_removeFromSource.mp hf).1
      · exact hf
    rw [hL2] at hf2
    split at hf2
    · exact (mem_removeFromSource.mp ((mem_removeFromSource.mp
        ((mem_removeFromSource.mp hf2).1)).1)).1
    · exact hf2
  refine ⟨hL3ne, ?_, ?_⟩
  · intro f hf
    have hf1 := hmemL1 f hf
    obtain ⟨hf1, hck6⟩ := mem_removeLabels.mp hf1
    obtain ⟨hf1, hck4⟩ := mem_removeLabels.mp hf1
    obtain ⟨hf1, hckw⟩ := mem_removeLabels.mp hf1
    rw [containsKey_singleton] at hck6 hck4 hckw
    simp only [labelWorld, labelWorldIPv4, labelWorldIPv6,
      decide_eq_false_iff_not] at hck6 hck4 hckw
    exact ⟨hf1, fun hh => hckw hh.symm, fun hh => hck4 hh.symm,
      fun hh => hck6 hh.symm⟩
  · intro hc2 f hf
    have hL2eq : L2 = ((L1.removeFromSource cidrSource).removeFromSource
        fqdnSource).removeFromSource cidrGroupSource := by
      rw [hL2, if_pos]
      rw [hc2]; rfl
    have hf2 : f ∈ L2 := by
      rw [hL3] at hf
      split at hf
      · exact (mem_removeFromSource.mp hf).1
      · exact hf
    rw [hL2eq] at hf2
    obtain ⟨hf2, hs3⟩ := mem_removeFromSource.mp hf2
    obtain ⟨hf2, hs2⟩ := mem_removeFromSource.mp hf2
    obtain ⟨hf2, hs1⟩ := mem_removeFromSource.mp hf2
    exact ⟨hs1, hs2, hs3⟩

theorem containsKey_setLabel_self (l : Labels) (lbl : Label) :
    (l.setLabel lbl).containsKey lbl.key = true := by
  obtain ⟨e, hm, hk⟩ := l.self_mem_setLabel lbl
  have h2 := Labels.containsKey_of_mem hm
  rwa [hk] at h2

theorem setLabel_ne_nil (l : Labels) (lbl : Label) : l.setLabel lbl ≠ [] := by
  obtain ⟨e, hm, _⟩ := l.self_mem_setLabel lbl
  exact List.ne_nil_of_mem hm

theorem addWorldLabel_ne_nil (cfg : Config) (l : Labels) (a : Addr) :
    addWorldLabel cfg l a ≠ [] := by
  unfold addWorldLabel
  split
  · exact setLabel_ne_nil l _
  · split
    · exact setLabel_ne_nil l _
    · exact setLabel_ne_nil l _

/-- `AddWorldLabel` always leaves a world label: either the plain
`reserved:world` label, or the variant matching the address family. -/
theorem containsKey_addWorldLabel (cfg : Config) (l : Labels) (a : Addr) :
    (addWorldLabel cfg l a).containsKey "world" = true ∨
      (addWorldLabel cfg l a).containsKey
        (if a.is4 then "world-ipv4" else "world-ipv6") = true := by
  unfold addWorldLabel
  split
  · exact Or.inl (containsKey_setLabel_self l labelWorld)
  · by_cases h4 : a.is4 = true
    · right
      rw [if_pos h4, if_pos h4]
      exact containsKey_setLabel_self l labelWorldIPv4
    · right
      rw [if_neg h4, if_neg h4]
      exact containsKey_setLabel_self l labelWorldIPv6

/-- If every label comes from the `node:` source, the prefix is not marked
in-cluster. -/
theorem not_inCluster_of_all_node {lbls : Labels}
    (hall : ∀ e ∈ lbls, e.source = nodeSource) :
    isInClusterLabels lbls = false := by
  have hno : ∀ lbl : Label, lbl.source = reservedSource →
      lbls.hasLabel lbl = false := by
    intro lbl hsrc
    cases hb : lbls.hasLabel lbl with
    | false => rfl
    | true =>
      obtain ⟨e, hm, hs, _⟩ := exists_of_hasLabel hb
      have := hall e hm
      rw [hsrc] at hs
      rw [this] at hs
      exact absurd hs (by decide)
  unfold isInClusterLabels isNodeLabels Labels.hasRemoteNodeLabel
    Labels.hasHostLabel Labels.hasHealthLabel Labels.hasIngressLabel
  rw [hno labelRemoteNode rfl, hno labelHost rfl, hno labelHealth rfl,
    hno labelIngress rfl]
  rfl

/-- Not-in-cluster prefixes always go through `AddWorldLabel`. -/
theorem rl_notInCluster_eq (cfg : Config) (lbls : Labels) (pc : PrefixCluster)
    (h : isInClusterLabels lbls = false) :
    ∃ l', resolveLabels cfg lbls pc = addWorldLabel cfg l' pc.pfx.addr := by
  have hnode : isNodeLabels lbls = false := by
    unfold isInClusterLabels at h
    simp only [Bool.or_eq_false_iff] at h
    exact h.1.1
  simp only [resolveLabels, h, hnode, Bool.false_and, Bool.not_false,
    Bool.true_eq_false, Bool.false_eq_true, if_false, if_true, ite_false,
    ite_true]
  exact ⟨_, rfl⟩

/-- When all input labels are removed (they all come from the `node:`
source and are not in-cluster markers), the `cidr:<prefix>` fallback labels
are injected and survive into the result. -/
theorem rl_all_node_fallback (cfg : Config) (lbls : Labels)
    (pc : PrefixCluster) (hall : ∀ e ∈ lbls, e.source = nodeSource) :
    ∀ c ∈ getCIDRLabels pc.pfx, c ∈ resolveLabels cfg lbls pc := by
  have h := not_inCluster_of_all_node hall
  have hnode : isNodeLabels lbls = false := by
    unfold isInClusterLabels at h
    simp only [Bool.or_eq_false_iff] at h
    exact h.1.1
  have hl3 : lbls.removeFromSource nodeSource = [] := by
    unfold Labels.removeFromSource
    rw [List.filter_eq_nil_iff]
    intro e hm
    simp [hall e hm]
  simp only [resolveLabels, h, hnode, Bool.false_and, Bool.not_false,
    Bool.true_eq_false, Bool.false_eq_true, if_false, if_true, ite_false,
    ite_true, hl3]
  intro c hc
  have hsz : Labels.size ([] : Labels) = 0 := rfl
  rw [if_pos hsz]
  have hcl : getCIDRLabels pc.pfx = [⟨pc.pfx.render, "", cidrSource⟩] := rfl
  rw [hcl] at hc
  have hceq : c = ⟨pc.pfx.render, "", cidrSource⟩ := by simpa using hc
  have hfold : (getCIDRLabels pc.pfx).foldl Labels.setLabel ([] : Labels) =
      [⟨pc.pfx.render, "", cidrSource⟩] := rfl
  rw [hfold]
  unfold addWorldLabel
  have hrne := render_ne_world pc.pfx
  split
  · refine Labels.mem_setLabel_of_mem (by rw [hceq]; simp) ?_
    rw [hceq]
    exact hrne.1
  · split
    · refine Labels.mem_setLabel_of_mem (by rw [hceq]; simp) ?_
      rw [hceq]
      exact hrne.2.1
    · refine Labels.mem_setLabel_of_mem (by rw [hceq]; simp) ?_
      rw [hceq]
      exact hrne.2.2

/-- Sample configuration with both address families enabled and both
node-related options off. -/
def cfgDual : Config := ⟨false, false, true, true⟩

/-- The prefix `10.0.0.0/8` in the local cluster. -/
def pcTen8 : PrefixCluster := ⟨⟨.v4 167772160, 8⟩, 0⟩

/-- C1: after `resolveLabels(lbls, p)`: if `lbls` marks `p` as in-cluster
(reserved host/remote-node/health/ingress), the result has no
`reserved:world`/`world-ipv4`/`world-ipv6` label and — unless `p` is a node
and `PolicyCIDRMatchesNodes` is enabled — no label of the `cidr:`, `fqdn:`
or `cidrgroup:` sources; if `lbls` does not mark `p` as in-cluster the
result carries `reserved:world` or the variant matching the address family;
and the result is never empty, `cidr:<p>` labels being injected as a
fallback when all labels were removed. -/
theorem claim_C1_resolveLabels (cfg : Config) (lbls : Labels)
    (pc : PrefixCluster) :
    (isInClusterLabels lbls = true →
        (resolveLabels cfg lbls pc).lookupKey "world" = none ∧
        (resolveLabels cfg lbls pc).lookupKey "world-ipv4" = none ∧
        (resolveLabels cfg lbls pc).lookupKey "world-ipv6" = none) ∧
    (isInClusterLabels lbls = true →
      (isNodeLabels lbls && cfg.policyCIDRMatchesNodes) = false →
      ∀ e ∈ resolveLabels cfg lbls pc,
        e.source ≠ cidrSource ∧ e.source ≠ fqdnSource ∧
          e.source ≠ cidrGroupSource) ∧
    (isInClusterLabels lbls = false →
      (resolveLabels cfg lbls pc).containsKey "world" = true ∨
        (resolveLabels cfg lbls pc).containsKey
          (if pc.pfx.addr.is4 then "world-ipv4" else "world-ipv6") = true) ∧
    resolveLabels cfg lbls pc ≠ [] ∧
    ((∀ e ∈ lbls, e.source = nodeSource) →
      ∀ c ∈ getCIDRLabels pc.pfx, c ∈ resolveLabels cfg lbls pc) := by
  refine ⟨?_, ?_, ?_, ?_, ?_⟩
  · intro h
    obtain ⟨-, hmem, -⟩ := rl_inCluster_shape cfg lbls pc h
    refine ⟨?_, ?_, ?_⟩ <;> rw [Labels.lookupKey_eq_none] <;> intro f hf
    · exact (hmem f hf).2.1
    · exact (hmem f hf).2.2.1
    · exact (hmem f hf).2.2.2
  · intro h hc
    exact (rl_inCluster_shape cfg lbls pc h).2.2 hc
  · intro h
    obtain ⟨l', hEq⟩ := rl_notInCluster_eq cfg lbls pc h
    rw [hEq]
    exact containsKey_addWorldLabel cfg l' pc.pfx.addr
  · by_cases hic : isInClusterLabels lbls = true
    · exact (rl_inCluster_shape cfg lbls pc hic).1
    · rw [Bool.not_eq_true] at hic
      obtain ⟨l', hEq⟩ := rl_notInCluster_eq cfg lbls pc hic
      rw [hEq]
      exact addWorldLabel_ne_nil cfg l' pc.pfx.addr
  · exact rl_all_node_fallback cfg lbls pc

/-- Witness for C1: concrete evaluations at `10.0.0.0/8`. -/
theorem claim_C1_witness :
    (resolveLabels cfgDual ([labelHost] : Labels) pcTen8).lookupKey "world" =
        none ∧
    ((resolveLabels cfgDual ([] : Labels) pcTen8).containsKey "world" = true ∨
      (resolveLabels cfgDual ([] : Labels) pcTen8).containsKey
        (if pcTen8.pfx.addr.is4 then "world-ipv4" else "world-ipv6") = true) ∧
    resolveLabels cfgDual ([labelHost] : Labels) pcTen8 ≠ [] ∧
    (⟨pcTen8.pfx.render, "", cidrSource⟩ : Label) ∈
      resolveLabels cfgDual ([] : Labels) pcTen8 :=
  ⟨((claim_C1_resolveLabels cfgDual ([labelHost] : Labels) pcTen8).1
      (by decide)).1,
    (claim_C1_resolveLabels cfgDual ([] : Labels) pcTen8).2.2.1 (by decide),
    (claim_C1_resolveLabels cfgDual ([labelHost] : Labels) pcTen8).2.2.2.1,
    (claim_C1_resolveLabels cfgDual ([] : Labels) pcTen8).2.2.2.2
      (by simp) ⟨pcTen8.pfx.render, "", cidrSource⟩ (by simp [getCIDRLabels])⟩

/-! ## Resource contributions (model of `resourceInfo`/`prefixInfo`, which
are not in the provided sources) -/

/-- Modelled from the spec: the precedence of contribution sources
(`pkg/source`), `KubeAPIServer > Local > CustomResource > KVStore >
Generated > Unspec`. -/
def sourcePrec : String → Nat
  | "kube-apiserver" => 6
  | "local" => 5
  | "custom-resource" => 4
  | "kvstore" => 3
  | "generated" => 2
  | _ => 0

/-- Model of `IPMetadata`: the optional attribute kinds accepted by
`upsertLocked` and `remove`. -/
inductive IPMetadata where
  | lbls (l : Labels)
  | tunnelPeer (ip : Nat)
  | encryptKey (k : Nat)
  | endpointFlags (f : Nat)
  | identityOverride (b : Bool)
  | requestedIdentity (id : Nat)
deriving DecidableEq, Repr

/-- Modelled from the spec: `resourceInfo` — one resource's contribution
for one prefix: labels, the writer's source, and optional attributes. -/
structure ResourceInfo where
  labels : Labels
  source : String
  identityOverride : Bool
  tunnelPeer : Option Nat
  encryptKey : Option Nat
  endpointFlags : Option Nat
  requestedIdentity : Option Nat
deriving DecidableEq, Repr

/-- A fresh `resourceInfo{source: src}` as created by `upsertLocked`. -/
def emptyResourceInfo (src : String) : ResourceInfo :=
  ⟨[], src, false, none, none, none, none⟩

/-- Modelled from the spec: merging of a scalar attribute — accept the new
value when currently empty, otherwise keep the existing value unless the new
source has strictly higher precedence. -/
def mergeScalar (cur : Option Nat) (v : Nat) (src cursrc : String) :
    Option Nat :=
  match cur with
  | none => some v
  | some w => if sourcePrec cursrc < sourcePrec src then some v else some w

/-- Modelled from the spec: union of label maps by key; keys already present
are not overwritten. -/
def unionAbsent (l new : Labels) : Labels :=
  (new : List Label).foldl
    (fun acc e => if acc.containsKey e.key then acc else acc ++ [e]) l

/-- Modelled from the spec: `resourceInfo.merge` — merges a fresh
contribution into a resource's info: labels union by key, sticky
`identityOverride`, scalars via `mergeScalar`, and the resource's source
becomes the writer's source. -/
def mergeOne (src : String) (r : ResourceInfo) (i : IPMetadata) :
    ResourceInfo :=
  let r2 := match i with
    | .lbls l => { r with labels := unionAbsent r.labels l }
    | .tunnelPeer v =>
        { r with tunnelPeer := mergeScalar r.tunnelPeer v src r.source }
    | .encryptKey v =>
        { r with encryptKey := mergeScalar r.encryptKey v src r.source }
    | .endpointFlags v =>
        { r with endpointFlags := mergeScalar r.endpointFlags v src r.source }
    | .identityOverride b =>
        { r with identityOverride := r.identityOverride || b }
    | .requestedIdentity id =>
        { r with requestedIdentity :=
            mergeScalar r.requestedIdentity id src r.source }
  { r2 with source := src }

/-- Modelled from the spec: `resourceInfo.unmerge` — subtracts labels and
clears attributes matching the contribution. -/
def unmergeOne (r : ResourceInfo) (i : IPMetadata) : ResourceInfo :=
  match i with
  | .lbls l =>
      { r with labels :=
          (r.labels : List Label).filter (fun e => ¬ l.containsKey e.key) }
  | .tunnelPeer v =>
      { r with tunnelPeer := if r.tunnelPeer = some v then none
        else r.tunnelPeer }
  | .encryptKey v =>
      { r with encryptKey := if r.encryptKey = some v then none
        else r.encryptKey }
  | .endpointFlags v =>
      { r with endpointFlags := if r.endpointFlags = some v then none
        else r.endpointFlags }
  | .identityOverride _ => { r with identityOverride := false }
  | .requestedIdentity id =>
      { r with requestedIdentity := if r.requestedIdentity = some id then none
        else r.requestedIdentity }

/-- Modelled from the spec: a `resourceInfo` is valid iff at least one of
labels, tunnelPeer, encryptKey, endpointFlags or identityOverride is set. -/
def ResourceInfo.isValid (r : ResourceInfo) : Bool :=
  !r.labels.isEmpty || r.identityOverride || r.tunnelPeer.isSome ||
    r.encryptKey.isSome || r.endpointFlags.isSome

/-- `resourceInfo.ToLabels`. -/
def ResourceInfo.toLabels (r : ResourceInfo) : Labels := r.labels

/-- Modelled from the spec: `prefixInfo` — the per-resource contributions
for a prefix plus the lazily computed flattened view (`none` when
invalidated). -/
structure PrefixInfo where
  byResource : List (String × ResourceInfo)
  flattened : Option ResourceInfo
deriving DecidableEq, Repr

/-- `newPrefixInfo()`. -/
def newPrefixInfo : PrefixInfo := ⟨[], none⟩

/-- Modelled from the spec: `prefixInfo.isValid` — some resource still
contributes. -/
def PrefixInfo.isValid (pin : PrefixInfo) : Bool := !pin.byResource.isEmpty

/-- Modelled from the spec: the order in which `flatten` visits the
contributions — source precedence (highest first), then resource ID for a
stable tiebreak. -/
def flattenBefore (a b : String × ResourceInfo) : Bool :=
  sourcePrec b.2.source < sourcePrec a.2.source ||
    (sourcePrec b.2.source == sourcePrec a.2.source && a.1 ≤ b.1)

/-- Insertion into a list sorted by `le`. -/
def insertSorted {α : Type} (le : α → α → Bool) (x : α) :
    List α → List α
  | [] => [x]
  | y :: t => if le x y then x :: y :: t else y :: insertSorted le x t

/-- Insertion sort by `le`. -/
def sortByBefore {α : Type} (le : α → α → Bool) (l : List α) : List α :=
  l.foldr (insertSorted le) []

/-- Modelled from the spec: `prefixInfo.flatten` — the union across all
resources in precedence order; the highest-precedence contributor wins
scalar conflicts, label keys from lower precedence fill only absent keys,
`identityOverride` is sticky, and the result's source is the highest
precedence among contributors. -/
def flatten (byResource : List (String × ResourceInfo)) : ResourceInfo :=
  match sortByBefore flattenBefore byResource with
  | [] => emptyResourceInfo "unspec"
  | (_, r0) :: rest =>
    rest.foldl
      (fun acc e =>
        { labels := unionAbsent acc.labels e.2.labels
          source := acc.source
          identityOverride := acc.identityOverride || e.2.identityOverride
          tunnelPeer := acc.tunnelPeer <|> e.2.tunnelPeer
          encryptKey := acc.encryptKey <|> e.2.encryptKey
          endpointFlags := acc.endpointFlags <|> e.2.endpointFlags
          requestedIdentity :=
            acc.requestedIdentity <|> e.2.requestedIdentity })
      r0

/-- Modelled from the spec: `resourceInfo.has(src, info)` — whether the
(possibly nil) flattened view already accounts for the contribution, in
which case `upsertLocked` reports no affected prefixes.  A nil flattened
view reports false. -/
def hasMeta : Option ResourceInfo → String → List IPMetadata → Bool
  | none, _, _ => false
  | some f, _, info =>
    info.all fun i =>
      match i with
      | .lbls l => l.all (fun e => f.labels.lookupKey e.key = some e)
      | .tunnelPeer v => f.tunnelPeer = some v
      | .encryptKey v => f.encryptKey = some v
      | .endpointFlags v => f.endpointFlags = some v
      | .identityOverride b => f.identityOverride = b
      | .requestedIdentity id => f.requestedIdentity = some id

/-! ## The metadata store state and its operations (metadata.go) -/

/-- Association-list lookup keyed by decidable equality (Go map read). -/
def alookup {α β : Type} [DecidableEq α] (l : List (α × β)) (k : α) :
    Option β :=
  (l.find? (fun e => e.1 = k)).map (fun e => e.2)

/-- Association-list assignment (Go map write). -/
def aset {α β : Type} [DecidableEq α] (l : List (α × β)) (k : α) (v : β) :
    List (α × β) :=
  if (l.find? (fun e => e.1 = k)).isSome then
    l.map (fun e => if e.1 = k then (k, v) else e)
  else l ++ [(k, v)]

/-- Association-list deletion (Go map delete). -/
def aerase {α β : Type} [DecidableEq α] (l : List (α × β)) (k : α) :
    List (α × β) :=
  l.filter (fun e => e.1 ≠ k)

/-- Modelled from the spec: prefix containment used for descendant
enumeration — same family, parent no longer than child, and agreement on
the parent's bits. -/
def prefixContains (parent child : IPPrefix) : Bool :=
  parent.isValid && child.isValid &&
    parent.addr.bitLen == child.addr.bitLen &&
    parent.bits ≤ child.bits &&
    child.addr.mask parent.bits.toNat == parent.addr.mask parent.bits.toNat

/-- Modelled from the spec: `bitlpm.CIDRTrieMap.Upsert` — idempotent
insertion into the per-cluster trie (modelled as a set of cluster/prefix
pairs). -/
def trieUpsert (t : List (Nat × IPPrefix)) (cid : Nat) (p : IPPrefix) :
    List (Nat × IPPrefix) :=
  if (cid, p) ∈ t then t else t ++ [(cid, p)]

/-- Modelled from the spec: `bitlpm.CIDRTrieMap.Delete` — idempotent
deletion. -/
def trieDelete (t : List (Nat × IPPrefix)) (cid : Nat) (p : IPPrefix) :
    List (Nat × IPPrefix) :=
  t.filter (fun e => e ≠ (cid, p))

/-- Modelled from the spec: `bitlpm.CIDRTrieMap.Descendants` — the stored
prefixes of the cluster contained within the parent (including the parent
itself when stored, as `findAffectedChildPrefixes` relies on). -/
def trieDescendants (t : List (Nat × IPPrefix)) (cid : Nat)
    (parent : IPPrefix) : List IPPrefix :=
  (t.filter (fun e => e.1 = cid && prefixContains parent e.2)).map
    (fun e => e.2)

/-- The state of the `metadata` struct: the prefix-info map, the per-cluster
tries, the queued prefixes, both revision counters, and the reserved-host
label map. -/
structure MetadataState where
  m : List (PrefixCluster × PrefixInfo)
  tries : List (Nat × IPPrefix)
  queuedPrefixes : List PrefixCluster
  queuedRevision : Nat
  injectedRevision : Nat
  reservedHostLabels : List (IPPrefix × Labels)
deriving DecidableEq, Repr

/-- `newMetadata`: empty maps, queue revision 1. -/
def newMetadata : MetadataState := ⟨[], [], [], 1, 0, []⟩

/-- `findAffectedChildPrefixes` (metadata.go): the parent itself for host
routes, otherwise all descendants stored in the cluster's trie. -/
def findAffectedChildPrefixes (S : MetadataState) (parent : PrefixCluster) :
    List PrefixCluster :=
  if parent.isSingleIP then [parent]
  else (trieDescendants S.tries parent.clusterID parent.pfx).map
    (fun p => ⟨p, parent.clusterID⟩)

/-- `upsertLocked` (metadata.go): insert/update the metadata associated
with this resource for this prefix; returns the new state and the affected
prefixes (empty when the change has no effect on the flattened view). -/
def upsertLocked (S : MetadataState) (pc0 : PrefixCluster) (src : String)
    (resource : String) (info : List IPMetadata) :
    MetadataState × List PrefixCluster :=
  let pc := canonicalPrefix pc0
  let fresh := (alookup S.m pc).isNone
  let m0 := if fresh then aset S.m pc newPrefixInfo else S.m
  let tr := if fresh then trieUpsert S.tries pc.clusterID pc.pfx else S.tries
  let pi0 := (alookup m0 pc).getD newPrefixInfo
  let freshRes := (alookup pi0.byResource resource).isNone
  let pi1 := if freshRes then
      { pi0 with
        byResource := aset pi0.byResource resource (emptyResourceInfo src) }
    else pi0
  let r0 := (alookup pi1.byResource resource).getD (emptyResourceInfo src)
  let merged := info.foldl
    (fun (acc : ResourceInfo × Bool) i =>
      let r2 := mergeOne src acc.1 i
      (r2, acc.2 || decide (r2 ≠ acc.1)))
    (r0, false)
  let changed := fresh || freshRes || merged.2
  let pi2 := { pi1 with byResource := aset pi1.byResource resource merged.1 }
  let S1 : MetadataState := { S with m := aset m0 pc pi2, tries := tr }
  if !changed || hasMeta pi2.flattened src info then (S1, [])
  else
    let pi3 := { pi2 with flattened := none }
    ({ S with m := aset m0 pc pi3, tries := tr },
      findAffectedChildPrefixes S1 pc)

/-- `remove` (metadata.go): remove the labels association of a resource for
a prefix; a missing entry or missing contribution is a no-op; affected
prefixes are computed before deletion; the prefix is dropped from map and
trie when no valid contribution remains. -/
def remove (S : MetadataState) (pc0 : PrefixCluster) (resource : String)
    (aux : List IPMetadata) : MetadataState × List PrefixCluster :=
  let pc := canonicalPrefix pc0
  match alookup S.m pc with
  | none => (S, [])
  | some info =>
    match alookup info.byResource resource with
    | none => (S, [])
    | some r0 =>
      let affected := findAffectedChildPrefixes S pc
      let r1 := aux.foldl unmergeOne r0
      let byRes := if r1.isValid then aset info.byResource resource r1
        else aerase info.byResource resource
      if byRes.isEmpty then
        ({ S with
            m := aerase S.m pc,
            tries := trieDelete S.tries pc.clusterID pc.pfx }, affected)
      else
        ({ S with m := aset S.m pc ⟨byRes, none⟩ }, affected)

/-- `enqueuePrefixUpdates` (metadata.go): add the prefixes to the queued
set and return the current queue revision. -/
def enqueuePrefixUpdates (S : MetadataState) (ps : List PrefixCluster) :
    MetadataState × Nat :=
  ({ S with queuedPrefixes :=
      ps.foldl (fun q p => if p ∈ q then q else q ++ [p]) S.queuedPrefixes },
    S.queuedRevision)

/-- `dequeuePrefixUpdates` (metadata.go): snapshot and clear the queued
set, return the batch together with the current queue revision, and
increment the queue revision. -/
def dequeuePrefixUpdates (S : MetadataState) :
    (List PrefixCluster × Nat) × MetadataState :=
  ((S.queuedPrefixes, S.queuedRevision),
    { S with queuedPrefixes := [], queuedRevision := S.queuedRevision + 1 })

/-- `setInjectedRevision` (metadata.go): store the given revision and wake
all waiters. -/
def setInjectedRevision (S : MetadataState) (rev : Nat) : MetadataState :=
  { S with injectedRevision := rev }

/-! ## Association-list lemmas -/

theorem map_eq_self_of {α : Type} {l : List α} {f : α → α}
    (h : ∀ x ∈ l, f x = x) : l.map f = l := by
  induction l with
  | nil => rfl
  | cons a t ih =>
    rw [List.map_cons, h a (by simp), ih (fun x hx => h x (by simp [hx]))]

theorem find?_map_replace {α β : Type} [DecidableEq α] (l : List (α × β))
    (k : α) (v : β) (hfind : (l.find? (fun e => e.1 = k)).isSome) :
    (l.map (fun e => if e.1 = k then (k, v) else e)).find?
      (fun e => e.1 = k) = some (k, v) := by
  induction l with
  | nil => simp at hfind
  | cons a t ih =>
    by_cases ha : a.1 = k
    · rw [List.map_cons, if_pos ha, List.find?_cons_of_pos _ (by simp)]
    · rw [List.map_cons, if_neg ha,
        List.find?_cons_of_neg _ (by simpa using ha)]
      apply ih
      rwa [List.find?_cons_of_neg _ (by simpa using ha)] at hfind

theorem alookup_aset_self {α β : Type} [DecidableEq α] (l : List (α × β))
    (k : α) (v : β) : alookup (aset l k v) k = some v := by
  unfold aset
  split
  · rename_i hfind
    unfold alookup
    rw [find?_map_replace l k v hfind]
    rfl
  · rename_i hfind
    unfold alookup
    rw [List.find?_append]
    have hnone : l.find? (fun e => e.1 = k) = none := by
      cases hf : l.find? (fun e => e.1 = k) with
      | none => rfl
      | some e => rw [hf] at hfind; simp at hfind
    rw [hnone]
    simp [List.find?]

theorem aset_map_self {α β : Type} [DecidableEq α] (l : List (α × β))
    (k : α) (v : β) :
    (l.map (fun e => if e.1 = k then (k, v) else e)).map
        (fun e => if e.1 = k then (k, v) else e) =
      l.map (fun e => if e.1 = k then (k, v) else e) := by
  rw [List.map_map]
  apply List.map_congr_left
  intro e _
  by_cases he : e.1 = k
  · simp [he]
  · simp [he]

theorem aset_of_found {α β : Type} [DecidableEq α] {l : List (α × β)}
    {k : α} (v : β) (h : (l.find? (fun e => e.1 = k)).isSome) :
    aset l k v = l.map (fun e => if e.1 = k then (k, v) else e) := by
  unfold aset
  rw [if_pos h]

theorem aset_of_not_found {α β : Type} [DecidableEq α] {l : List (α × β)}
    {k : α} (v : β) (h : ¬ (l.find? (fun e => e.1 = k)).isSome) :
    aset l k v = l ++ [(k, v)] := by
  unfold aset
  rw [if_neg h]

theorem aset_aset {α β : Type} [DecidableEq α] (l : List (α × β))
    (k : α) (v v' : β) : aset (aset l k v) k v' = aset l k v' := by
  have hsome : ((aset l k v).find? (fun e => e.1 = k)).isSome := by
    have h := alookup_aset_self l k v
    unfold alookup at h
    cases hf : (aset l k v).find? (fun e => e.1 = k) with
    | none => rw [hf] at h; simp at h
    | some e => simp
  rw [aset_of_found v' hsome]
  by_cases hl : (l.find? (fun e => e.1 = k)).isSome
  · rw [aset_of_found v hl, aset_of_found v' hl, List.map_map]
    apply List.map_congr_left
    intro e _
    by_cases he : e.1 = k
    · simp [he]
    · simp [he]
  · rw [aset_of_not_found v hl, aset_of_not_found v' hl]
    have hnil : ∀ e ∈ l, e.1 ≠ k := by
      intro e he hk
      have hs : (l.find? (fun e => e.1 = k)).isSome := by
        rw [List.find?_isSome]
        exact ⟨e, he, by simpa using hk⟩
      exact absurd hs hl
    rw [List.map_append]
    congr 1
    · exact map_eq_self_of (fun e he => if_neg (hnil e he))
    · simp

theorem aset_aset_self {α β : Type} [DecidableEq α] (l : List (α × β))
    (k : α) (v : β) : aset (aset l k v) k v = aset l k v :=
  aset_aset l k v v

theorem mem_aset {α β : Type} [DecidableEq α] {l : List (α × β)}
    {k : α} {v : β} {e : α × β} (h : e ∈ aset l k v) :
    e ∈ l ∨ e = (k, v) := by
  unfold aset at h
  split at h
  · obtain ⟨x, hx, hfx⟩ := List.mem_map.mp h
    by_cases hk : x.1 = k
    · rw [if_pos hk] at hfx
      exact Or.inr hfx.symm
    · rw [if_neg hk] at hfx
      exact Or.inl (hfx ▸ hx)
  · rcases List.mem_append.mp h with h | h
    · exact Or.inl h
    · exact Or.inr (by simpa using h)

theorem mem_aset_of_mem_ne {α β : Type} [DecidableEq α] {l : List (α × β)}
    {k : α} {v : β} {e : α × β} (he : e ∈ l) (hk : e.1 ≠ k) :
    e ∈ aset l k v := by
  unfold aset
  split
  · exact List.mem_map.mpr ⟨e, he, by rw [if_neg hk]⟩
  · exact List.mem_append_left _ he

theorem kv_mem_aset {α β : Type} [DecidableEq α] (l : List (α × β))
    (k : α) (v : β) : (k, v) ∈ aset l k v := by
  unfold aset
  split
  · rename_i hfind
    rw [Option.isSome_iff_exists] at hfind
    obtain ⟨x, hx⟩ := hfind
    have hmem := List.mem_of_find?_eq_some hx
    have hkx : x.1 = k := by simpa using List.find?_some hx
    exact List.mem_map.mpr ⟨x, hmem, by rw [if_pos hkx]⟩
  · exact List.mem_append_right _ (by simp)

theorem alookup_eq_none_iff {α β : Type} [DecidableEq α]
    {l : List (α × β)} {k : α} :
    alookup l k = none ↔ ∀ e ∈ l, e.1 ≠ k := by
  unfold alookup
  simp [List.find?_eq_none]

theorem mem_aerase {α β : Type} [DecidableEq α] {l : List (α × β)}
    {k : α} {e : α × β} : e ∈ aerase l k ↔ e ∈ l ∧ e.1 ≠ k := by
  unfold aerase
  simp [List.mem_filter]

/-! ## Claims C10, C5, C4: remove/upsert no-ops and the injected
revision -/

/-- A resource contribution used by the concrete witnesses. -/
def rInfoA : ResourceInfo :=
  ⟨[⟨"app", "web", "k8s"⟩], "custom-resource", false, none, none, none, none⟩

/-- A store holding one valid prefix with one contribution. -/
def stateOne : MetadataState :=
  { newMetadata with
    m := [(pcTen8, ⟨[("r1", rInfoA)], none⟩)],
    tries := [(0, pcTen8.pfx)] }

/-- C10: if the canonicalized prefix has no metadata entry, or the entry
records no contribution for the resource, `remove` returns no affected
prefixes and leaves the whole state (map, tries, and all other resources'
contributions) unchanged. -/
theorem claim_C10_remove_missing_noop (S : MetadataState)
    (pc : PrefixCluster) (resource : String) (aux : List IPMetadata)
    (h : alookup S.m (canonicalPrefix pc) = none ∨
      ∃ pin, alookup S.m (canonicalPrefix pc) = some pin ∧
        alookup pin.byResource resource = none) :
    remove S pc resource aux = (S, []) := by
  rcases h with h | ⟨pin, h1, h2⟩
  · simp only [remove, h]
  · simp only [remove, h1, h2]

/-- Witness for C10: removing an unregistered resource's contribution from
a populated store. -/
theorem claim_C10_witness : remove stateOne pcTen8 "r2" [] = (stateOne, []) :=
  claim_C10_remove_missing_noop stateOne pcTen8 "r2" []
    (Or.inr ⟨⟨[("r1", rInfoA)], none⟩, by decide, by decide⟩)

/-- A store state whose injected revision is 5. -/
def stateRev5 : MetadataState := { newMetadata with injectedRevision := 5 }

/-- C5 counterexample: `setInjectedRevision` stores the argument as-is; with
injected revision 5, a call with 3 yields 3, not `max 5 3`, so the value is
not always non-decreasing. -/
theorem claim_C5_counterexample :
    ¬ ((setInjectedRevision stateRev5 3).injectedRevision =
        max stateRev5.injectedRevision 3) := by decide

/-- C5 (amended): `setInjectedRevision(r)` sets the injected revision to
exactly `r` (no clamping to the maximum); over a sequence of calls the final
value is the last revision supplied, so the injected revision is
non-decreasing only when the supplied revisions are. -/
theorem claim_C5_setInjectedRevision (S : MetadataState) (r : Nat)
    (rs : List Nat) :
    (setInjectedRevision S r).injectedRevision = r ∧
    (rs.foldl setInjectedRevision S).injectedRevision =
      rs.getLastD S.injectedRevision ∧
    (S.injectedRevision ≤ r →
      S.injectedRevision ≤ (setInjectedRevision S r).injectedRevision) := by
  refine ⟨rfl, ?_, fun h => h⟩
  induction rs generalizing S with
  | nil => rfl
  | cons a t ih =>
    rw [List.getLastD_cons]
    exact ih (setInjectedRevision S a)

/-- Witness for C5's amended statement, at revision sequence `[2, 9]`. -/
theorem claim_C5_witness :
    (setInjectedRevision stateRev5 7).injectedRevision = 7 ∧
    ([2, 9].foldl setInjectedRevision stateRev5).injectedRevision = 9 ∧
    stateRev5.injectedRevision ≤
      (setInjectedRevision stateRev5 7).injectedRevision := by
  obtain ⟨h1, h2, h3⟩ := claim_C5_setInjectedRevision stateRev5 7 [2, 9]
  exact ⟨h1, h2, h3 (by decide)⟩

/-- The invalid (zero-value) prefix in the local cluster. -/
def badPC : PrefixCluster := ⟨⟨.invalid, -1⟩, 0⟩

/-- C4 counterexample: upserting an invalid prefix is not a no-op — it
creates a metadata-map entry keyed by the invalid prefix, so the invalid
prefix is inserted into the store. -/
theorem claim_C4_counterexample :
    ¬ ((upsertLocked newMetadata badPC "custom-resource" "r1" []).1.m =
        newMetadata.m) := by decide

/-- C4 (amended): an invalid prefix is passed through canonicalization
unchanged, and `remove` of an invalid prefix without a map entry is a no-op
returning no affected prefixes and leaving the state unchanged; `upsertLocked`
of an invalid prefix, however, does insert it into the metadata map. -/
theorem claim_C4_invalid_prefix (pc : PrefixCluster)
    (h : pc.pfx.isValid = false) :
    canonicalPrefix pc = pc ∧
    (∀ S resource aux, alookup S.m pc = none →
      remove S pc resource aux = (S, [])) ∧
    (∀ S src resource info,
      alookup (upsertLocked S pc src resource info).1.m pc ≠ none) := by
  have hcanon : canonicalPrefix pc = pc := by
    unfold canonicalPrefix
    rw [if_pos]
    simp [h]
  refine ⟨hcanon, ?_, ?_⟩
  · intro S resource aux hnone
    simp only [remove, hcanon, hnone]
  · intro S src resource info
    simp only [upsertLocked, hcanon]
    repeat' split
    all_goals (rw [alookup_aset_self]; simp)

/-- Witness for C4's amended statement at the zero-value prefix. -/
theorem claim_C4_witness :
    canonicalPrefix badPC = badPC ∧
    remove newMetadata badPC "r1" [] = (newMetadata, []) ∧
    alookup (upsertLocked stateOne badPC "local" "r1"
      [.lbls [⟨"env", "prod", "k8s"⟩]]).1.m badPC ≠ none := by
  obtain ⟨h1, h2, h3⟩ := claim_C4_invalid_prefix badPC (by decide)
  exact ⟨h1, h2 newMetadata "r1" [] (by decide),
    h3 stateOne "local" "r1" [.lbls [⟨"env", "prod", "k8s"⟩]]⟩

/-! ## Claim C6: enqueue/dequeue semantics -/

theorem mem_enqFold_of_mem_init {q : PrefixCluster}
    {ps acc : List PrefixCluster} (h : q ∈ acc) :
    q ∈ ps.foldl (fun l p => if p ∈ l then l else l ++ [p]) acc := by
  induction ps generalizing acc with
  | nil => exact h
  | cons a t ih =>
    rw [List.foldl_cons]
    apply ih
    split
    · exact h
    · exact List.mem_append_left _ h

theorem mem_enqFold_of_mem {q : PrefixCluster} {ps acc : List PrefixCluster}
    (h : q ∈ ps) :
    q ∈ ps.foldl (fun l p => if p ∈ l then l else l ++ [p]) acc := by
  induction ps generalizing acc with
  | nil => simp at h
  | cons a t ih =>
    rw [List.foldl_cons]
    rcases List.mem_cons.mp h with rfl | h
    · apply mem_enqFold_of_mem_init
      split
      · assumption
      · exact List.mem_append_right _ (by simp)
    · exact ih h

theorem enqMore_queuedRevision (more : List (List PrefixCluster))
    (S : MetadataState) :
    (more.foldl (fun s l => (enqueuePrefixUpdates s l).1) S).queuedRevision =
      S.queuedRevision := by
  induction more generalizing S with
  | nil => rfl
  | cons a t ih =>
    rw [List.foldl_cons]
    exact ih (enqueuePrefixUpdates S a).1

theorem enqMore_mem (more : List (List PrefixCluster)) (S : MetadataState)
    {q : PrefixCluster} (h : q ∈ S.queuedPrefixes) :
    q ∈ (more.foldl (fun s l =>
      (enqueuePrefixUpdates s l).1) S).queuedPrefixes := by
  induction more generalizing S with
  | nil => exact h
  | cons a t ih =>
    rw [List.foldl_cons]
    exact ih (enqueuePrefixUpdates S a).1 (mem_enqFold_of_mem_init h)

/-- C6: `enqueuePrefixUpdates` adds the prefixes to the queued set and
returns the current queued revision unchanged; `dequeuePrefixUpdates`
returns the queued prefixes with the current revision, clears the set, and
increments the revision; and a prefix enqueued under returned revision `r`
is contained in the next dequeue's batch, whose revision is at least `r`. -/
theorem claim_C6_queue_semantics (S : MetadataState)
    (ps : List PrefixCluster) (more : List (List PrefixCluster))
    (p : PrefixCluster) :
    ((enqueuePrefixUpdates S ps).2 = S.queuedRevision ∧
      (enqueuePrefixUpdates S ps).1.queuedRevision = S.queuedRevision ∧
      (∀ q ∈ ps, q ∈ (enqueuePrefixUpdates S ps).1.queuedPrefixes) ∧
      (∀ q ∈ S.queuedPrefixes,
        q ∈ (enqueuePrefixUpdates S ps).1.queuedPrefixes)) ∧
    ((dequeuePrefixUpdates S).1.1 = S.queuedPrefixes ∧
      (dequeuePrefixUpdates S).1.2 = S.queuedRevision ∧
      (dequeuePrefixUpdates S).2.queuedPrefixes = [] ∧
      (dequeuePrefixUpdates S).2.queuedRevision = S.queuedRevision + 1) ∧
    (p ∈ ps →
      p ∈ (dequeuePrefixUpdates (more.foldl (fun s l =>
          (enqueuePrefixUpdates s l).1) (enqueuePrefixUpdates S ps).1)).1.1 ∧
        (enqueuePrefixUpdates S ps).2 ≤
          (dequeuePrefixUpdates (more.foldl (fun s l =>
            (enqueuePrefixUpdates s l).1)
              (enqueuePrefixUpdates S ps).1)).1.2) := by
  refine ⟨⟨rfl, rfl, ?_, ?_⟩, ⟨rfl, rfl, rfl, rfl⟩, ?_⟩
  · intro q hq
    exact mem_enqFold_of_mem hq
  · intro q hq
    exact mem_enqFold_of_mem_init hq
  · intro hp
    constructor
    · exact enqMore_mem more (enqueuePrefixUpdates S ps).1
        (mem_enqFold_of_mem hp)
    · have hrev := enqMore_queuedRevision more (enqueuePrefixUpdates S ps).1
      change (more.foldl (fun s l => (enqueuePrefixUpdates s l).1)
        (enqueuePrefixUpdates S ps).1).queuedRevision ≥ _
      rw [hrev]
      exact le_refl _

/-- Witness for C6 at a concrete queue trace. -/
theorem claim_C6_witness :
    (enqueuePrefixUpdates stateOne [pcTen8]).2 = stateOne.queuedRevision ∧
    (dequeuePrefixUpdates stateOne).2.queuedRevision =
      stateOne.queuedRevision + 1 ∧
    pcTen8 ∈ (dequeuePrefixUpdates ([[badPC]].foldl (fun s l =>
      (enqueuePrefixUpdates s l).1)
        (enqueuePrefixUpdates stateOne [pcTen8]).1)).1.1 := by
  obtain ⟨h1, h2, h3⟩ :=
    claim_C6_queue_semantics stateOne [pcTen8] [[badPC]] pcTen8
  exact ⟨h1.1, h2.2.2.2, (h3 (by decide)).1⟩

/-! ## Claim C8: metadata-map / trie consistency -/

/-- The consistency invariant between the metadata map and the per-cluster
tries: a prefix cluster is a key of `m` iff its prefix is stored in the trie
of its cluster. -/
def trieConsistent (S : MetadataState) : Prop :=
  (∀ e ∈ S.m, (e.1.clusterID, e.1.pfx) ∈ S.tries) ∧
  (∀ t ∈ S.tries, ∃ e ∈ S.m, e.1 = ⟨t.2, t.1⟩)

instance (S : MetadataState) : Decidable (trieConsistent S) := by
  unfold trieConsistent
  infer_instance

theorem mem_of_alookup_eq_some {α β : Type} [DecidableEq α]
    {l : List (α × β)} {k : α} {v : β} (h : alookup l k = some v) :
    (k, v) ∈ l := by
  unfold alookup at h
  cases hf : l.find? (fun e => e.1 = k) with
  | none => rw [hf] at h; simp at h
  | some e =>
    rw [hf] at h
    have hmem := List.mem_of_find?_eq_some hf
    have hk : e.1 = k := by simpa using List.find?_some hf
    have hv : e.2 = v := by simpa using h
    have : e = (k, v) := Prod.ext hk hv
    rwa [this] at hmem

theorem exists_key_of_alookup_isSome {α β : Type} [DecidableEq α]
    {l : List (α × β)} {k : α} (h : (alookup l k).isSome) :
    ∃ x ∈ l, x.1 = k := by
  cases ha : alookup l k with
  | none => rw [ha] at h; simp at h
  | some v => exact ⟨(k, v), mem_of_alookup_eq_some ha, rfl⟩

theorem mem_trieUpsert {t : List (Nat × IPPrefix)} {c : Nat} {p : IPPrefix}
    {e : Nat × IPPrefix} (h : e ∈ trieUpsert t c p) :
    e ∈ t ∨ e = (c, p) := by
  unfold trieUpsert at h
  split at h
  · exact Or.inl h
  · rcases List.mem_append.mp h with h | h
    · exact Or.inl h
    · exact Or.inr (by simpa using h)

theorem mem_trieUpsert_of_mem {t : List (Nat × IPPrefix)} {c : Nat}
    {p : IPPrefix} {e : Nat × IPPrefix} (h : e ∈ t) : e ∈ trieUpsert t c p := by
  unfold trieUpsert
  split
  · exact h
  · exact List.mem_append_left _ h

theorem self_mem_trieUpsert (t : List (Nat × IPPrefix)) (c : Nat)
    (p : IPPrefix) : (c, p) ∈ trieUpsert t c p := by
  unfold trieUpsert
  split
  · assumption
  · exact List.mem_append_right _ (by simp)

theorem mem_trieDelete {t : List (Nat × IPPrefix)} {c : Nat} {p : IPPrefix}
    {e : Nat × IPPrefix} : e ∈ trieDelete t c p ↔ e ∈ t ∧ e ≠ (c, p) := by
  unfold trieDelete
  simp [List.mem_filter]

theorem trieConsistent_upsert_fresh {S : MetadataState}
    (h : trieConsistent S) {pcc : PrefixCluster}
    (hnone : ∀ e ∈ S.m, e.1 ≠ pcc) (pin : PrefixInfo) :
    trieConsistent { S with
      m := aset S.m pcc pin,
      tries := trieUpsert S.tries pcc.clusterID pcc.pfx } := by
  constructor
  · intro e he
    rcases mem_aset he with he | heq
    · exact mem_trieUpsert_of_mem (h.1 e he)
    · rw [heq]
      exact self_mem_trieUpsert S.tries pcc.clusterID pcc.pfx
  · intro t ht
    rcases mem_trieUpsert ht with ht | heq
    · obtain ⟨e, he, hk⟩ := h.2 t ht
      exact ⟨e, mem_aset_of_mem_ne he (hnone e he), hk⟩
    · refine ⟨(pcc, pin), kv_mem_aset S.m pcc pin, ?_⟩
      rw [heq]

theorem trieConsistent_upsert_existing {S : MetadataState}
    (h : trieConsistent S) {pcc : PrefixCluster}
    (hsome : ∃ x ∈ S.m, x.1 = pcc) (pin : PrefixInfo) :
    trieConsistent { S with m := aset S.m pcc pin } := by
  constructor
  · intro e he
    rcases mem_aset he with he | heq
    · exact h.1 e he
    · obtain ⟨x, hx, hxk⟩ := hsome
      have hx2 := h.1 x hx
      rw [heq]
      rw [hxk] at hx2
      exact hx2
  · intro t ht
    obtain ⟨e, he, hk⟩ := h.2 t ht
    by_cases hek : e.1 = pcc
    · exact ⟨(pcc, pin), kv_mem_aset S.m pcc pin, by rw [← hek, hk]⟩
    · exact ⟨e, mem_aset_of_mem_ne he hek, hk⟩

theorem trieConsistent_remove_del {S : MetadataState}
    (h : trieConsistent S) (pcc : PrefixCluster) :
    trieConsistent { S with
      m := aerase S.m pcc,
      tries := trieDelete S.tries pcc.clusterID pcc.pfx } := by
  constructor
  · intro e he
    obtain ⟨he, hne⟩ := mem_aerase.mp he
    refine mem_trieDelete.mpr ⟨h.1 e he, ?_⟩
    intro hcontra
    apply hne
    have h1 : e.1.clusterID = pcc.clusterID := congrArg Prod.fst hcontra
    have h2 : e.1.pfx = pcc.pfx := congrArg Prod.snd hcontra
    calc e.1 = ⟨e.1.pfx, e.1.clusterID⟩ := rfl
      _ = ⟨pcc.pfx, pcc.clusterID⟩ := by rw [h1, h2]
      _ = pcc := rfl
  · intro t ht
    obtain ⟨ht, htne⟩ := mem_trieDelete.mp ht
    obtain ⟨e, he, hk⟩ := h.2 t ht
    refine ⟨e, mem_aerase.mpr ⟨he, ?_⟩, hk⟩
    intro hek
    apply htne
    rw [hek] at hk
    have h1 : pcc.pfx = t.2 := congrArg PrefixCluster.pfx hk
    have h2 : pcc.clusterID = t.1 := congrArg PrefixCluster.clusterID hk
    calc t = (t.1, t.2) := rfl
      _ = (pcc.clusterID, pcc.pfx) := by rw [← h1, ← h2]

/-- C8: the map/trie consistency invariant (`prefix ∈ m ⇔ prefix ∈
trie[prefix.clusterID]`) is preserved by every `upsertLocked` and every
`remove`. -/
theorem claim_C8_trie_consistency (S : MetadataState) (pc : PrefixCluster)
    (src resource resource2 : String) (info aux : List IPMetadata)
    (h : trieConsistent S) :
    trieConsistent (upsertLocked S pc src resource info).1 ∧
    trieConsistent (remove S pc resource2 aux).1 := by
  constructor
  · by_cases hf : (alookup S.m (canonicalPrefix pc)).isNone = true
    · have hnone : ∀ e ∈ S.m, e.1 ≠ canonicalPrefix pc :=
        alookup_eq_none_iff.mp (by simpa using hf)
      simp only [upsertLocked, hf, eq_self_iff_true, if_true]
      repeat' split
      all_goals (rw [aset_aset]; exact trieConsistent_upsert_fresh h hnone _)
    · rw [Bool.not_eq_true] at hf
      have hsome0 : (alookup S.m (canonicalPrefix pc)).isSome := by
        cases ha : alookup S.m (canonicalPrefix pc) with
        | none => rw [ha] at hf; simp at hf
        | some v => simp
      have hsome : ∃ x ∈ S.m, x.1 = canonicalPrefix pc :=
        exists_key_of_alookup_isSome hsome0
      simp only [upsertLocked, hf, Bool.false_eq_true, if_false]
      repeat' split
      all_goals exact trieConsistent_upsert_existing h hsome _
  · simp only [remove]
    split
    · exact h
    · rename_i info1 hm
      split
      · exact h
      · have hex : ∃ x ∈ S.m, x.1 = canonicalPrefix pc :=
          ⟨(canonicalPrefix pc, info1), mem_of_alookup_eq_some hm, rfl⟩
        split
        · split
          · exact trieConsistent_remove_del h _
          · exact trieConsistent_upsert_existing h hex _
        · split
          · exact trieConsistent_remove_del h _
          · exact trieConsistent_upsert_existing h hex _

/-- Witness for C8: consistency holds after a concrete upsert and remove on
a populated consistent store. -/
theorem claim_C8_witness :
    trieConsistent (upsertLocked stateOne pcTen8 "kvstore" "r9"
      [.lbls [⟨"x", "y", "k8s"⟩]]).1 ∧
    trieConsistent (remove stateOne pcTen8 "r1"
      [.lbls [⟨"app", "web", "k8s"⟩]]).1 :=
  claim_C8_trie_consistency stateOne pcTen8 "kvstore" "r9" "r1"
    [.lbls [⟨"x", "y", "k8s"⟩]] [.lbls [⟨"app", "web", "k8s"⟩]]
    (by decide)

/-! ## Claim C7: idempotence of `upsertLocked` -/

theorem mergeOne_source (src : String) (r : ResourceInfo) (i : IPMetadata) :
    (mergeOne src r i).source = src := by
  cases i <;> rfl

theorem mergeOne_labels (src : String) (r : ResourceInfo) (i : IPMetadata) :
    (mergeOne src r i).labels =
      (match i with
        | .lbls L => unionAbsent r.labels L
        | _ => r.labels) := by
  cases i <;> rfl

theorem mergeOne_identityOverride (src : String) (r : ResourceInfo)
    (i : IPMetadata) :
    (mergeOne src r i).identityOverride =
      (match i with
        | .identityOverride b => r.identityOverride || b
        | _ => r.identityOverride) := by
  cases i <;> rfl

theorem mergeOne_tunnelPeer (src : String) (r : ResourceInfo)
    (i : IPMetadata) :
    (mergeOne src r i).tunnelPeer =
      (match i with
        | .tunnelPeer v => mergeScalar r.tunnelPeer v src r.source
        | _ => r.tunnelPeer) := by
  cases i <;> rfl

theorem mergeOne_encryptKey (src : String) (r : ResourceInfo)
    (i : IPMetadata) :
    (mergeOne src r i).encryptKey =
      (match i with
        | .encryptKey v => mergeScalar r.encryptKey v src r.source
        | _ => r.encryptKey) := by
  cases i <;> rfl

theorem mergeOne_endpointFlags (src : String) (r : ResourceInfo)
    (i : IPMetadata) :
    (mergeOne src r i).endpointFlags =
      (match i with
        | .endpointFlags v => mergeScalar r.endpointFlags v src r.source
        | _ => r.endpointFlags) := by
  cases i <;> rfl

theorem mergeOne_requestedIdentity (src : String) (r : ResourceInfo)
    (i : IPMetadata) :
    (mergeOne src r i).requestedIdentity =
      (match i with
        | .requestedIdentity id => mergeScalar r.requestedIdentity id src
            r.source
        | _ => r.requestedIdentity) := by
  cases i <;> rfl

theorem foldl_mergeOne_source (src : String) (info : List IPMetadata) :
    ∀ r : ResourceInfo, info ≠ [] →
      (info.foldl (mergeOne src) r).source = src := by
  induction info with
  | nil => intro r h; exact absurd rfl h
  | cons a t ih =>
    intro r _
    rw [List.foldl_cons]
    cases t with
    | nil => exact mergeOne_source src r a
    | cons b u => exact ih _ (by simp)

theorem mergeScalar_isSome (cur : Option Nat) (v : Nat) (src cs : String) :
    (mergeScalar cur v src cs).isSome := by
  cases cur with
  | none => rfl
  | some w =>
    show (if sourcePrec cs < sourcePrec src then some v else some w).isSome =
      true
    split <;> rfl

theorem containsKey_append_left {l : Labels} {k : String}
    (h : l.containsKey k = true) (l2 : Labels) :
    Labels.containsKey (l ++ l2) k = true := by
  simp only [Labels.containsKey, Labels.lookupKey] at h ⊢
  rw [List.find?_append]
  cases hf : l.find? (fun e => e.key = k) with
  | none => rw [hf] at h; simp at h
  | some e => simp [Option.or]

theorem unionAbsent_mono {l : Labels} (new : Labels) {k : String}
    (h : l.containsKey k = true) :
    (unionAbsent l new).containsKey k = true := by
  unfold unionAbsent
  induction new generalizing l with
  | nil => exact h
  | cons a t ih =>
    rw [List.foldl_cons]
    apply ih
    split
    · exact h
    · exact containsKey_append_left h [a]

theorem containsKey_self_append (l : Labels) (a : Label) :
    Labels.containsKey (l ++ [a]) a.key = true := by
  simp only [Labels.containsKey, Labels.lookupKey]
  rw [List.find?_append]
  cases hf : l.find? (fun e => e.key = a.key) with
  | none => simp [Option.or, List.find?]
  | some e => simp [Option.or]

theorem unionAbsent_new (l new : Labels) :
    ∀ e ∈ new, (unionAbsent l new).containsKey e.key = true := by
  unfold unionAbsent
  induction new generalizing l with
  | nil => intro e he; simp at he
  | cons a t ih =>
    intro e he
    rw [List.foldl_cons]
    rcases List.mem_cons.mp he with rfl | he
    · apply unionAbsent_mono
      split
      · assumption
      · exact containsKey_self_append l e
    · exact ih _ e he

theorem unionAbsent_eq_of_all {l new : Labels}
    (h : ∀ e ∈ new, l.containsKey e.key = true) : unionAbsent l new = l := by
  unfold unionAbsent
  induction new with
  | nil => rfl
  | cons a t ih =>
    rw [List.foldl_cons, if_pos (h a (by simp))]
    exact ih (fun e he => h e (by simp [he]))

theorem foldl_mergeOne_labels_mono (src : String) (info : List IPMetadata)
    {k : String} : ∀ r : ResourceInfo, r.labels.containsKey k = true →
      (info.foldl (mergeOne src) r).labels.containsKey k = true := by
  induction info with
  | nil => intro r h; exact h
  | cons a t ih =>
    intro r h
    rw [List.foldl_cons]
    apply ih
    rw [mergeOne_labels]
    cases a <;> simp only [] <;> first
      | exact unionAbsent_mono _ h
      | exact h

theorem foldl_mergeOne_lbls_mem (src : String) (info : List IPMetadata)
    {L : Labels} (hmem : IPMetadata.lbls L ∈ info) :
    ∀ (r : ResourceInfo) (e : Label), e ∈ L →
      (info.foldl (mergeOne src) r).labels.containsKey e.key = true := by
  induction info with
  | nil => simp at hmem
  | cons a t ih =>
    intro r e he
    rw [List.foldl_cons]
    rcases List.mem_cons.mp hmem with rfl | hmem
    · apply foldl_mergeOne_labels_mono
      rw [mergeOne_labels]
      exact unionAbsent_new r.labels L e he
    · exact ih hmem _ e he

theorem foldl_mergeOne_tp_mono (src : String) (info : List IPMetadata) :
    ∀ r : ResourceInfo, r.tunnelPeer.isSome = true →
      (info.foldl (mergeOne src) r).tunnelPeer.isSome = true := by
  induction info with
  | nil => intro r h; exact h
  | cons a t ih =>
    intro r h
    rw [List.foldl_cons]
    apply ih
    rw [mergeOne_tunnelPeer]
    cases a <;> first | exact mergeScalar_isSome _ _ _ _ | exact h

theorem foldl_mergeOne_tp_mem (src : String) (info : List IPMetadata)
    {v : Nat} (hmem : IPMetadata.tunnelPeer v ∈ info) :
    ∀ r : ResourceInfo,
      (info.foldl (mergeOne src) r).tunnelPeer.isSome = true := by
  induction info with
  | nil => simp at hmem
  | cons a t ih =>
    intro r
    rw [List.foldl_cons]
    rcases List.mem_cons.mp hmem with rfl | hmem
    · apply foldl_mergeOne_tp_mono
      rw [mergeOne_tunnelPeer]
      exact mergeScalar_isSome _ _ _ _
    · exact ih hmem _

theorem foldl_mergeOne_ek_mono (src : String) (info : List IPMetadata) :
    ∀ r : ResourceInfo, r.encryptKey.isSome = true →
      (info.foldl (mergeOne src) r).encryptKey.isSome = true := by
  induction info with
  | nil => intro r h; exact h
  | cons a t ih =>
    intro r h
    rw [List.foldl_cons]
    apply ih
    rw [mergeOne_encryptKey]
    cases a <;> first | exact mergeScalar_isSome _ _ _ _ | exact h

theorem foldl_mergeOne_ek_mem (src : String) (info : List IPMetadata)
    {v : Nat} (hmem : IPMetadata.encryptKey v ∈ info) :
    ∀ r : ResourceInfo,
      (info.foldl (mergeOne src) r).encryptKey.isSome = true := by
  induction info with
  | nil => simp at hmem
  | cons a t ih =>
    intro r
    rw [List.foldl_cons]
    rcases List.mem_cons.mp hmem with rfl | hmem
    · apply foldl_mergeOne_ek_mono
      rw [mergeOne_encryptKey]
      exact mergeScalar_isSome _ _ _ _
    · exact ih hmem _

theorem foldl_mergeOne_ef_mono (src : String) (info : List IPMetadata) :
    ∀ r : ResourceInfo, r.endpointFlags.isSome = true →
      (info.foldl (mergeOne src) r).endpointFlags.isSome = true := by
  induction info with
  | nil => intro r h; exact h
  | cons a t ih =>
    intro r h
    rw [List.foldl_cons]
    apply ih
    rw [mergeOne_endpointFlags]
    cases a <;> first | exact mergeScalar_isSome _ _ _ _ | exact h

theorem foldl_mergeOne_ef_mem (src : String) (info : List IPMetadata)
    {v : Nat} (hmem : IPMetadata.endpointFlags v ∈ info) :
    ∀ r : ResourceInfo,
      (info.foldl (mergeOne src) r).endpointFlags.isSome = true := by
  induction info with
  | nil => simp at hmem
  | cons a t ih =>
    intro r
    rw [List.foldl_cons]
    rcases List.mem_cons.mp hmem with rfl | hmem
    · apply foldl_mergeOne_ef_mono
      rw [mergeOne_endpointFlags]
      exact mergeScalar_isSome _ _ _ _
    · exact ih hmem _

theorem foldl_mergeOne_ri_mono (src : String) (info : List IPMetadata) :
    ∀ r : ResourceInfo, r.requestedIdentity.isSome = true →
      (info.foldl (mergeOne src) r).requestedIdentity.isSome = true := by
  induction info with
  | nil => intro r h; exact h
  | cons a t ih =>
    intro r h
    rw [List.foldl_cons]
    apply ih
    rw [mergeOne_requestedIdentity]
    cases a <;> first | exact mergeScalar_isSome _ _ _ _ | exact h

theorem foldl_mergeOne_ri_mem (src : String) (info : List IPMetadata)
    {v : Nat} (hmem : IPMetadata.requestedIdentity v ∈ info) :
    ∀ r : ResourceInfo,
      (info.foldl (mergeOne src) r).requestedIdentity.isSome = true := by
  induction info with
  | nil => simp at hmem
  | cons a t ih =>
    intro r
    rw [List.foldl_cons]
    rcases List.mem_cons.mp hmem with rfl | hmem
    · apply foldl_mergeOne_ri_mono
      rw [mergeOne_requestedIdentity]
      exact mergeScalar_isSome _ _ _ _
    · exact ih hmem _

theorem foldl_mergeOne_ov_mono (src : String) (info : List IPMetadata) :
    ∀ r : ResourceInfo, r.identityOverride = true →
      (info.foldl (mergeOne src) r).identityOverride = true := by
  induction info with
  | nil => intro r h; exact h
  | cons a t ih =>
    intro r h
    rw [List.foldl_cons]
    apply ih
    rw [mergeOne_identityOverride]
    cases a <;> simp [h]

theorem foldl_mergeOne_ov_mem (src : String) (info : List IPMetadata)
    (hmem : IPMetadata.identityOverride true ∈ info) :
    ∀ r : ResourceInfo,
      (info.foldl (mergeOne src) r).identityOverride = true := by
  induction info with
  | nil => simp at hmem
  | cons a t ih =>
    intro r
    rw [List.foldl_cons]
    rcases List.mem_cons.mp hmem with rfl | hmem
    · apply foldl_mergeOne_ov_mono
      rw [mergeOne_identityOverride]
      simp
    · exact ih hmem _

theorem resourceInfo_ext {a b : ResourceInfo} (h1 : a.labels = b.labels)
    (h2 : a.source = b.source)
    (h3 : a.identityOverride = b.identityOverride)
    (h4 : a.tunnelPeer = b.tunnelPeer) (h5 : a.encryptKey = b.encryptKey)
    (h6 : a.endpointFlags = b.endpointFlags)
    (h7 : a.requestedIdentity = b.requestedIdentity) : a = b := by
  cases a; cases b
  simp_all

theorem mergeScalar_self {o : Option Nat} {w : Nat} (ho : o = some w)
    (v : Nat) (src : String) : mergeScalar o v src src = o := by
  rw [ho]
  show (if sourcePrec src < sourcePrec src then some v else some w) = some w
  rw [if_neg (lt_irrefl _)]

/-- Re-merging any contribution already contained in a merge fold changes
nothing. -/
theorem mergeOne_absorb (src : String) (info : List IPMetadata)
    (r0 : ResourceInfo) {i : IPMetadata} (hi : i ∈ info) :
    mergeOne src (info.foldl (mergeOne src) r0) i =
      info.foldl (mergeOne src) r0 := by
  have hne : info ≠ [] := List.ne_nil_of_mem hi
  have hsrc : (info.foldl (mergeOne src) r0).source = src :=
    foldl_mergeOne_source src info r0 hne
  cases i with
  | lbls L =>
    refine resourceInfo_ext ?_ ?_ rfl rfl rfl rfl rfl
    · rw [mergeOne_labels]
      exact unionAbsent_eq_of_all
        (fun e he => foldl_mergeOne_lbls_mem src info hi r0 e he)
    · rw [mergeOne_source, hsrc]
  | tunnelPeer v =>
    refine resourceInfo_ext rfl ?_ rfl ?_ rfl rfl rfl
    · rw [mergeOne_source, hsrc]
    · rw [mergeOne_tunnelPeer]
      obtain ⟨w, hw⟩ := Option.isSome_iff_exists.mp
        (foldl_mergeOne_tp_mem src info hi r0)
      rw [hsrc]
      exact mergeScalar_self hw v src
  | encryptKey v =>
    refine resourceInfo_ext rfl ?_ rfl rfl ?_ rfl rfl
    · rw [mergeOne_source, hsrc]
    · rw [mergeOne_encryptKey]
      obtain ⟨w, hw⟩ := Option.isSome_iff_exists.mp
        (foldl_mergeOne_ek_mem src info hi r0)
      rw [hsrc]
      exact mergeScalar_self hw v src
  | endpointFlags v =>
    refine resourceInfo_ext rfl ?_ rfl rfl rfl ?_ rfl
    · rw [mergeOne_source, hsrc]
    · rw [mergeOne_endpointFlags]
      obtain ⟨w, hw⟩ := Option.isSome_iff_exists.mp
        (foldl_mergeOne_ef_mem src info hi r0)
      rw [hsrc]
      exact mergeScalar_self hw v src
  | requestedIdentity id =>
    refine resourceInfo_ext rfl ?_ rfl rfl rfl rfl ?_
    · rw [mergeOne_source, hsrc]
    · rw [mergeOne_requestedIdentity]
      obtain ⟨w, hw⟩ := Option.isSome_iff_exists.mp
        (foldl_mergeOne_ri_mem src info hi r0)
      rw [hsrc]
      exact mergeScalar_self hw id src
  | identityOverride b =>
    refine resourceInfo_ext rfl ?_ ?_ rfl rfl rfl rfl
    · rw [mergeOne_source, hsrc]
    · rw [mergeOne_identityOverride]
      cases b with
      | true =>
        rw [foldl_mergeOne_ov_mem src info hi r0]
        simp
      | false => simp

theorem trackFold_fst (src : String) (info : List IPMetadata) :
    ∀ (r : ResourceInfo) (b : Bool),
      (info.foldl (fun (acc : ResourceInfo × Bool) i =>
        (mergeOne src acc.1 i, acc.2 || decide (mergeOne src acc.1 i ≠ acc.1)))
        (r, b)).1 = info.foldl (mergeOne src) r := by
  induction info with
  | nil => intro r b; rfl
  | cons a t ih =>
    intro r b
    rw [List.foldl_cons, List.foldl_cons]
    exact ih _ _

theorem trackFold_absorbed (src : String) (info : List IPMetadata)
    (r : ResourceInfo) (h : ∀ i ∈ info, mergeOne src r i = r) :
    info.foldl (fun (acc : ResourceInfo × Bool) i =>
      (mergeOne src acc.1 i, acc.2 || decide (mergeOne src acc.1 i ≠ acc.1)))
      (r, false) = (r, false) := by
  induction info with
  | nil => rfl
  | cons a t ih =>
    rw [List.foldl_cons]
    have ha := h a (by simp)
    have hstep : (mergeOne src (r, false).1 a, (r, false).2 ||
        decide (mergeOne src (r, false).1 a ≠ (r, false).1)) =
        ((r : ResourceInfo), false) := by
      show (mergeOne src r a, false || decide (mergeOne src r a ≠ r)) =
        (r, false)
      rw [ha]
      simp
    rw [hstep]
    exact ih (fun i hi => h i (by simp [hi]))

theorem aset_all_key {α β : Type} [DecidableEq α] {l : List (α × β)} {k : α}
    {v : β} : ∀ e ∈ aset l k v, e.1 = k → e = (k, v) := by
  intro e he hek
  unfold aset at he
  split at he
  · obtain ⟨x, hx, hfx⟩ := List.mem_map.mp he
    by_cases hxk : x.1 = k
    · rw [if_pos hxk] at hfx
      exact hfx.symm
    · rw [if_neg hxk] at hfx
      rw [← hfx] at hek
      exact absurd hek hxk
  · rename_i hfind
    rcases List.mem_append.mp he with he | he
    · exfalso
      apply hfind
      rw [List.find?_isSome]
      exact ⟨e, he, by simpa using hek⟩
    · simpa using he

theorem alookup_isSome_find {α β : Type} [DecidableEq α]
    {l : List (α × β)} {k : α} (h : (alookup l k).isSome) :
    (l.find? (fun e => e.1 = k)).isSome := by
  unfold alookup at h
  cases hf : l.find? (fun e => e.1 = k) with
  | none => rw [hf] at h; simp at h
  | some e => simp

theorem aset_eq_self {α β : Type} [DecidableEq α] {l : List (α × β)}
    {k : α} {v : β} (hsome : (alookup l k).isSome)
    (hall : ∀ e ∈ l, e.1 = k → e = (k, v)) : aset l k v = l := by
  unfold aset
  rw [if_pos (alookup_isSome_find hsome)]
  apply map_eq_self_of
  intro e he
  by_cases hek : e.1 = k
  · rw [if_pos hek]
    exact (hall e he hek).symm
  · rw [if_neg hek]

/-- When the prefix and the resource already exist and every contribution is
already absorbed, `upsertLocked` changes nothing and reports no affected
prefixes. -/
theorem upsertLocked_noop (S : MetadataState) (pc0 : PrefixCluster)
    (src resource : String) (info : List IPMetadata)
    {PIN : PrefixInfo} {RA : ResourceInfo}
    (h1 : alookup S.m (canonicalPrefix pc0) = some PIN)
    (h1' : ∀ e ∈ S.m, e.1 = canonicalPrefix pc0 →
      e = (canonicalPrefix pc0, PIN))
    (h2 : alookup PIN.byResource resource = some RA)
    (h2' : ∀ e ∈ PIN.byResource, e.1 = resource → e = (resource, RA))
    (h3 : ∀ i ∈ info, mergeOne src RA i = RA) :
    upsertLocked S pc0 src resource info = (S, []) := by
  simp only [upsertLocked, h1, h2, Option.isNone_some, Bool.false_eq_true,
    if_false, ite_false, Option.getD_some]
  rw [trackFold_absorbed src info RA h3]
  simp only [Bool.or_false, Bool.false_or, Bool.not_false, Bool.true_or,
    if_true, ite_true]
  rw [aset_eq_self (by rw [h2]; rfl) h2']
  rw [aset_eq_self (by rw [h1]; rfl) h1']

/-- The state after any `upsertLocked` holds the merged resource info for
the canonical prefix, and that info is a merge fold over the supplied
metadata. -/
theorem upsertLocked_post (S : MetadataState) (pc0 : PrefixCluster)
    (src resource : String) (info : List IPMetadata) :
    ∃ (PIN : PrefixInfo) (RA r0 : ResourceInfo),
      alookup (upsertLocked S pc0 src resource info).1.m
        (canonicalPrefix pc0) = some PIN ∧
      (∀ e ∈ (upsertLocked S pc0 src resource info).1.m,
        e.1 = canonicalPrefix pc0 → e = (canonicalPrefix pc0, PIN)) ∧
      alookup PIN.byResource resource = some RA ∧
      (∀ e ∈ PIN.byResource, e.1 = resource → e = (resource, RA)) ∧
      RA = info.foldl (mergeOne src) r0 := by
  simp only [upsertLocked]
  repeat' split
  all_goals exact ⟨_, _, _, alookup_aset_self _ _ _,
    fun e he hk => aset_all_key e he hk, alookup_aset_self _ _ _,
    fun e he hk => aset_all_key e he hk, trackFold_fst src info _ false⟩

/-- C7: calling `upsertLocked` twice in a row with identical arguments
leaves the state after the second call equal to the state after the first
call, and the second call returns an empty affected-prefix set. -/
theorem claim_C7_upsert_idempotent (S : MetadataState) (pc : PrefixCluster)
    (src resource : String) (info : List IPMetadata) :
    upsertLocked (upsertLocked S pc src resource info).1 pc src resource
      info = ((upsertLocked S pc src resource info).1, []) := by
  obtain ⟨PIN, RA, r0, hA1, hA2, hA3, hA4, hA5⟩ :=
    upsertLocked_post S pc src resource info
  apply upsertLocked_noop _ _ _ _ _ hA1 hA2 hA3 hA4
  intro i hi
  rw [hA5]
  exact mergeOne_absorb src info r0 hi

/-! ## Claim C2: `mergeParentLabels` (metadata.go) -/

/-- `getLocked` (metadata.go): the flattened prefix info for the
canonicalized prefix; a nil cached flattened view is recomputed (the
write-back of the cache is not modelled — it is invisible to readers). -/
def getLocked (S : MetadataState) (pc : PrefixCluster) :
    Option ResourceInfo :=
  (alookup S.m (canonicalPrefix pc)).map fun pin =>
    match pin.flattened with
    | some f => f
    | none => flatten pin.byResource

/-- One entry of the parent-label merge loop: skip `cidr:`-source labels
when one was already taken, add the label only when its key is absent. -/
def mplEntryStep (acc : Labels × Bool) (e : Label) : Labels × Bool :=
  if e.source = cidrSource ∧ acc.2 then acc
  else if (acc.1.lookupKey e.key).isSome then acc
  else (acc.1 ++ [e], acc.2 || decide (e.source = cidrSource))

/-- The parent prefix at `b` bits: `prefix.Addr().Unmap().Prefix(b)` with
the error ignored (yielding the zero prefix, as in Go). -/
def parentAt (pc : PrefixCluster) (b : Nat) : PrefixCluster :=
  match IPPrefix.addrPrefix pc.pfx.addr.unmap (b : Int) with
  | some p => ⟨p, pc.clusterID⟩
  | none => ⟨IPPrefix.zero, pc.clusterID⟩

/-- Visit one ancestor: merge its flattened labels when it is stored. -/
def mplAncStep (S : MetadataState) (pc : PrefixCluster)
    (acc : Labels × Bool) (b : Nat) : Labels × Bool :=
  match getLocked S (parentAt pc b) with
  | none => acc
  | some inf => inf.toLabels.foldl mplEntryStep acc

/-- The ancestor bit-lengths visited by the loop: `Bits()-1` down to 0. -/
def parentBits (pc : PrefixCluster) : List Nat :=
  (List.range pc.pfx.bits.toNat).reverse

/-- `mergeParentLabels` (metadata.go): pull down all labels from parent
prefixes, with longer prefixes having preference; only a single
`cidr:`-source label is merged at most. -/
def mergeParentLabels (S : MetadataState) (lbls : Labels)
    (pc : PrefixCluster) : Labels :=
  ((parentBits pc).foldl (mplAncStep S pc)
    (lbls, lbls.hasSource cidrSource)).1

/-- The label an ancestor at `b` bits provides for key `k` (observer used
to state properties of `mergeParentLabels`). -/
def ancestorLabelAt (S : MetadataState) (pc : PrefixCluster) (b : Nat)
    (k : String) : Option Label :=
  (getLocked S (parentAt pc b)).bind fun inf => inf.toLabels.lookupKey k

/-- The number of `cidr:`-source labels in a label map. -/
def cidrCount (l : Labels) : Nat :=
  ((l : List Label).filter (fun e => e.source = cidrSource)).length

/-! Entry-level lemmas about the merge loop. -/

theorem lookupKey_append_of_isSome {l : Labels} {k : String}
    (h : (l.lookupKey k).isSome) (l2 : Labels) :
    Labels.lookupKey (l ++ l2) k = l.lookupKey k := by
  simp only [Labels.lookupKey] at h ⊢
  rw [List.find?_append]
  cases hf : l.find? (fun e => e.key = k) with
  | none => rw [hf] at h; simp at h
  | some e => simp [Option.or]

theorem lookupKey_append_of_none {l : Labels} {k : String}
    (h : l.lookupKey k = none) (e : Label) :
    Labels.lookupKey (l ++ [e]) k = if e.key = k then some e else none := by
  simp only [Labels.lookupKey] at h ⊢
  rw [List.find?_append, h]
  simp only [Option.or]
  by_cases hek : e.key = k
  · rw [if_pos hek, List.find?_cons_of_pos _ (by simpa using hek)]
  · rw [if_neg hek, List.find?_cons_of_neg _ (by simpa using hek)]
    rfl

theorem mplEntryStep_lookup_preserve {acc : Labels × Bool} {k : String}
    (h : (acc.1.lookupKey k).isSome) (e : Label) :
    ((mplEntryStep acc e).1).lookupKey k = acc.1.lookupKey k := by
  unfold mplEntryStep
  split
  · rfl
  · split
    · rfl
    · exact lookupKey_append_of_isSome h [e]

theorem mplFold_lookup_preserve (L : List Label) :
    ∀ (acc : Labels × Bool) (k : String), (acc.1.lookupKey k).isSome →
      ((L.foldl mplEntryStep acc).1).lookupKey k = acc.1.lookupKey k := by
  induction L with
  | nil => intro acc k _; rfl
  | cons e t ih =>
    intro acc k h
    rw [List.foldl_cons]
    rw [ih _ k (by rw [mplEntryStep_lookup_preserve h]; exact h)]
    exact mplEntryStep_lookup_preserve h e

theorem mplFold_lookup_absent (L : Labels) :
    ∀ (acc : Labels × Bool) (k : String), L.lookupKey k = none →
      ((L.foldl mplEntryStep acc).1).lookupKey k = acc.1.lookupKey k := by
  induction L with
  | nil => intro acc k _; rfl
  | cons e t ih =>
    intro acc k h
    have hek : ¬ (e.key = k) := by
      intro hk
      unfold Labels.lookupKey at h
      rw [List.find?_cons_of_pos _ (by simpa using hk)] at h
      exact Option.noConfusion h
    have ht : Labels.lookupKey t k = none := by
      unfold Labels.lookupKey at h ⊢
      rwa [List.find?_cons_of_neg _ (by simpa using hek)] at h
    rw [List.foldl_cons, ih _ k ht]
    unfold mplEntryStep
    split
    · rfl
    · split
      · rfl
      · cases hacc : acc.1.lookupKey k with
        | none => rw [lookupKey_append_of_none hacc, if_neg hek]
        | some x =>
          rw [lookupKey_append_of_isSome (by rw [hacc]; rfl) [e], hacc]

theorem mplFold_mem (L : List Label) :
    ∀ (acc : Labels × Bool) (e : Label), e ∈ (L.foldl mplEntryStep acc).1 →
      e ∈ acc.1 ∨ e ∈ L := by
  induction L with
  | nil => intro acc e h; exact Or.inl h
  | cons a t ih =>
    intro acc e h
    rw [List.foldl_cons] at h
    rcases ih _ e h with h | h
    · unfold mplEntryStep at h
      split at h
      · exact Or.inl h
      · split at h
        · exact Or.inl h
        · rcases List.mem_append.mp h with h | h
          · exact Or.inl h
          · have he2 : e = a := by simpa using h
            exact Or.inr (by simp [he2])
    · exact Or.inr (by simp [h])

theorem mplFold_contains_mono (L : List Label) {k : String} :
    ∀ acc : Labels × Bool, acc.1.containsKey k = true →
      ((L.foldl mplEntryStep acc).1).containsKey k = true := by
  induction L with
  | nil => intro acc h; exact h
  | cons a t ih =>
    intro acc h
    rw [List.foldl_cons]
    apply ih
    simp only [Labels.containsKey] at h ⊢
    rw [mplEntryStep_lookup_preserve h a]
    exact h

theorem mplFold_first_hit (L : Labels) :
    ∀ (acc : Labels × Bool) (k : String) (v : Label),
      acc.1.lookupKey k = none → L.lookupKey k = some v →
      v.source ≠ cidrSource →
      ((L.foldl mplEntryStep acc).1).lookupKey k = some v := by
  induction L with
  | nil =>
    intro acc k v _ hL _
    exact absurd hL (by unfold Labels.lookupKey; simp)
  | cons e t ih =>
    intro acc k v hacc hL hv
    rw [List.foldl_cons]
    by_cases hek : e.key = k
    · have hev : e = v := by
        unfold Labels.lookupKey at hL
        rw [List.find?_cons_of_pos _ (by simpa using hek)] at hL
        simpa using hL
      subst hev
      have hstep : (mplEntryStep acc e).1.lookupKey k = some e := by
        unfold mplEntryStep
        rw [if_neg (fun hcc => hv hcc.1), if_neg ?hcond]
        case hcond =>
          rw [hek, hacc]
          simp
        show Labels.lookupKey (acc.1 ++ [e]) k = some e
        rw [lookupKey_append_of_none hacc, if_pos hek]
      rw [mplFold_lookup_preserve t _ k (by rw [hstep]; rfl)]
      exact hstep
    · have ht : Labels.lookupKey t k = some v := by
        unfold Labels.lookupKey at hL ⊢
        rwa [List.find?_cons_of_neg _ (by simpa using hek)] at hL
      apply ih _ k v _ ht hv
      unfold mplEntryStep
      split
      · exact hacc
      · split
        · exact hacc
        · rw [lookupKey_append_of_none hacc, if_neg hek]

theorem mplFold_cover (L : List Label) :
    ∀ (acc : Labels × Bool) (e : Label), e ∈ L → e.source ≠ cidrSource →
      ((L.foldl mplEntryStep acc).1).containsKey e.key = true := by
  induction L with
  | nil => intro acc e h; simp at h
  | cons a t ih =>
    intro acc e he hv
    rw [List.foldl_cons]
    rcases List.mem_cons.mp he with rfl | he
    · apply mplFold_contains_mono
      unfold mplEntryStep
      rw [if_neg (by simp [hv])]
      split
      · assumption
      · simp only [Labels.containsKey]
        rename_i hnone
        cases hacc : acc.1.lookupKey e.key with
        | none => rw [lookupKey_append_of_none hacc, if_pos rfl]; rfl
        | some x => exact absurd (by rw [hacc]; rfl) hnone
    · exact ih _ e he hv

theorem cidrCount_append (l : Labels) (e : Label) :
    cidrCount (l ++ [e]) =
      cidrCount l + (if e.source = cidrSource then 1 else 0) := by
  unfold cidrCount
  rw [List.filter_append]
  by_cases h : e.source = cidrSource <;> simp [h]

theorem hasSource_iff_cidrCount (l : Labels) :
    l.hasSource cidrSource = true ↔ 1 ≤ cidrCount l := by
  unfold Labels.hasSource cidrCount
  rw [List.any_eq_true]
  constructor
  · rintro ⟨e, he, hp⟩
    have hm : e ∈ l.filter (fun e => e.source = cidrSource) :=
      List.mem_filter.mpr ⟨he, hp⟩
    exact Nat.one_le_iff_ne_zero.mpr (by
      intro h0
      rw [List.length_eq_zero] at h0
      rw [h0] at hm
      simp at hm)
  · intro h
    cases hf : l.filter (fun e => e.source = cidrSource) with
    | nil => rw [hf] at h; simp at h
    | cons a t =>
      have ha : a ∈ l.filter (fun e => e.source = cidrSource) := by
        rw [hf]; simp
      obtain ⟨hal, hap⟩ := List.mem_filter.mp ha
      exact ⟨a, hal, hap⟩

theorem mplEntryStep_cidr_inv {acc : Labels × Bool}
    (h1 : cidrCount acc.1 ≤ 1)
    (h2 : acc.2 = true ↔ 1 ≤ cidrCount acc.1) (e : Label) :
    cidrCount (mplEntryStep acc e).1 ≤ 1 ∧
      ((mplEntryStep acc e).2 = true ↔
        1 ≤ cidrCount (mplEntryStep acc e).1) := by
  unfold mplEntryStep
  split
  · exact ⟨h1, h2⟩
  · split
    · exact ⟨h1, h2⟩
    · rename_i hskip _
      by_cases hc : e.source = cidrSource
      · have hacc2 : acc.2 = false := by
          cases hb : acc.2
          · rfl
          · exact absurd ⟨hc, hb⟩ hskip
        have hcnt : cidrCount acc.1 = 0 := by
          by_contra hne
          have hge : 1 ≤ cidrCount acc.1 := Nat.one_le_iff_ne_zero.mpr hne
          rw [← h2, hacc2] at hge
          exact Bool.noConfusion hge
        constructor
        · show cidrCount (acc.1 ++ [e]) ≤ 1
          rw [cidrCount_append, hcnt, if_pos hc]
        · show _ ↔ 1 ≤ cidrCount (acc.1 ++ [e])
          rw [cidrCount_append, hcnt, if_pos hc]
          simp [hc]
      · constructor
        · show cidrCount (acc.1 ++ [e]) ≤ 1
          rw [cidrCount_append, if_neg hc]
          simpa using h1
        · show _ ↔ 1 ≤ cidrCount (acc.1 ++ [e])
          rw [cidrCount_append, if_neg hc]
          simp only [hc, decide_False, Bool.or_false, Nat.add_zero]
          exact h2

theorem mplFold_cidr_inv (L : Labels) :
    ∀ acc : Labels × Bool, cidrCount acc.1 ≤ 1 →
      (acc.2 = true ↔ 1 ≤ cidrCount acc.1) →
      cidrCount (L.foldl mplEntryStep acc).1 ≤ 1 ∧
        ((L.foldl mplEntryStep acc).2 = true ↔
          1 ≤ cidrCount (L.foldl mplEntryStep acc).1) := by
  induction L with
  | nil => intro acc h1 h2; exact ⟨h1, h2⟩
  | cons e t ih =>
    intro acc h1 h2
    rw [List.foldl_cons]
    obtain ⟨h1b, h2b⟩ := mplEntryStep_cidr_inv h1 h2 e
    exact ih _ h1b h2b

/-! Ancestor-level lemmas about the merge loop. -/

theorem ancFold_lookup_preserve (S : MetadataState) (pc : PrefixCluster)
    (BS : List Nat) :
    ∀ (acc : Labels × Bool) (k : String), (acc.1.lookupKey k).isSome →
      ((BS.foldl (mplAncStep S pc) acc).1).lookupKey k =
        acc.1.lookupKey k := by
  induction BS with
  | nil => intro acc k _; rfl
  | cons c rest ih =>
    intro acc k h
    rw [List.foldl_cons]
    have hstep : ((mplAncStep S pc acc c).1).lookupKey k =
        acc.1.lookupKey k := by
      unfold mplAncStep
      split
      · rfl
      · exact mplFold_lookup_preserve _ _ k h
    rw [ih _ k (by rw [hstep]; exact h), hstep]

theorem ancFold_mem (S : MetadataState) (pc : PrefixCluster)
    (BS : List Nat) :
    ∀ (acc : Labels × Bool) (e : Label),
      e ∈ (BS.foldl (mplAncStep S pc) acc).1 →
      e ∈ acc.1 ∨ ∃ b ∈ BS, ∃ inf,
        getLocked S (parentAt pc b) = some inf ∧ e ∈ inf.toLabels := by
  induction BS with
  | nil => intro acc e h; exact Or.inl h
  | cons c rest ih =>
    intro acc e h
    rw [List.foldl_cons] at h
    rcases ih _ e h with h | ⟨b, hb, inf, hinf, he⟩
    · unfold mplAncStep at h
      split at h
      · exact Or.inl h
      · rename_i inf hinf
        rcases mplFold_mem _ _ e h with h | h
        · exact Or.inl h
        · exact Or.inr ⟨c, by simp, inf, hinf, h⟩
    · exact Or.inr ⟨b, by simp [hb], inf, hinf, he⟩

theorem ancFold_contains_mono (S : MetadataState) (pc : PrefixCluster)
    (BS : List Nat) {k : String} :
    ∀ acc : Labels × Bool, acc.1.containsKey k = true →
      ((BS.foldl (mplAncStep S pc) acc).1).containsKey k = true := by
  induction BS with
  | nil => intro acc h; exact h
  | cons c rest ih =>
    intro acc h
    rw [List.foldl_cons]
    apply ih
    unfold mplAncStep
    split
    · exact h
    · exact mplFold_contains_mono _ _ h

theorem ancFold_cidr_inv (S : MetadataState) (pc : PrefixCluster)
    (BS : List Nat) :
    ∀ acc : Labels × Bool, cidrCount acc.1 ≤ 1 →
      (acc.2 = true ↔ 1 ≤ cidrCount acc.1) →
      cidrCount (BS.foldl (mplAncStep S pc) acc).1 ≤ 1 := by
  induction BS with
  | nil => intro acc h1 _; exact h1
  | cons c rest ih =>
    intro acc h1 h2
    rw [List.foldl_cons]
    have hstep : cidrCount (mplAncStep S pc acc c).1 ≤ 1 ∧
        ((mplAncStep S pc acc c).2 = true ↔
          1 ≤ cidrCount (mplAncStep S pc acc c).1) := by
      unfold mplAncStep
      split
      · exact ⟨h1, h2⟩
      · exact mplFold_cidr_inv _ _ h1 h2
    exact ih _ hstep.1 hstep.2

theorem ancFold_longest (S : MetadataState) (pc : PrefixCluster)
    (BS : List Nat) :
    BS.Pairwise (· > ·) →
    ∀ (acc : Labels × Bool) (k : String) (v : Label) (b : Nat),
      acc.1.lookupKey k = none → b ∈ BS →
      ancestorLabelAt S pc b k = some v → v.source ≠ cidrSource →
      (∀ b' ∈ BS, b < b' → ancestorLabelAt S pc b' k = none) →
      ((BS.foldl (mplAncStep S pc) acc).1).lookupKey k = some v := by
  induction BS with
  | nil => intro _ acc k v b _ hb; simp at hb
  | cons c rest ih =>
    intro hpw acc k v b hacc hb hv hvs hnone
    have hc : ∀ x ∈ rest, c > x := List.pairwise_cons.mp hpw |>.1
    have hpw2 : rest.Pairwise (· > ·) := List.pairwise_cons.mp hpw |>.2
    rw [List.foldl_cons]
    rcases List.mem_cons.mp hb with rfl | hb
    · -- the longest defining ancestor is visited first
      have hsome : ∃ inf, getLocked S (parentAt pc b) = some inf ∧
          inf.toLabels.lookupKey k = some v := by
        unfold ancestorLabelAt at hv
        cases hg : getLocked S (parentAt pc b) with
        | none => rw [hg] at hv; simp at hv
        | some inf =>
          rw [hg] at hv
          exact ⟨inf, rfl, by simpa using hv⟩
      obtain ⟨inf, hg, hlk⟩ := hsome
      have hstep : ((mplAncStep S pc acc b).1).lookupKey k = some v := by
        unfold mplAncStep
        rw [hg]
        exact mplFold_first_hit _ _ k v hacc hlk hvs
      rw [ancFold_lookup_preserve S pc rest _ k (by rw [hstep]; rfl), hstep]
    · have hcb : b < c := hc b hb
      have hcnone : ancestorLabelAt S pc c k = none :=
        hnone c (by simp) hcb
      have hstep : ((mplAncStep S pc acc c).1).lookupKey k = none := by
        unfold mplAncStep
        cases hg : getLocked S (parentAt pc c) with
        | none => exact hacc
        | some inf =>
          have hlk : inf.toLabels.lookupKey k = none := by
            unfold ancestorLabelAt at hcnone
            rw [hg] at hcnone
            simpa using hcnone
          rw [mplFold_lookup_absent _ _ k hlk]
          exact hacc
      exact ih hpw2 _ k v b hstep hb hv hvs
        (fun b' hb' hlt => hnone b' (by simp [hb']) hlt)

theorem ancFold_cover (S : MetadataState) (pc : PrefixCluster)
    (BS : List Nat) :
    ∀ (acc : Labels × Bool) (b : Nat), b ∈ BS →
      ∀ inf, getLocked S (parentAt pc b) = some inf →
      ∀ e ∈ inf.toLabels, e.source ≠ cidrSource →
      ((BS.foldl (mplAncStep S pc) acc).1).containsKey e.key = true := by
  induction BS with
  | nil => intro acc b hb; simp at hb
  | cons c rest ih =>
    intro acc b hb inf hinf e he hv
    rw [List.foldl_cons]
    rcases List.mem_cons.mp hb with rfl | hb
    · apply ancFold_contains_mono
      unfold mplAncStep
      rw [hinf]
      exact mplFold_cover _ _ e he hv
    · exact ih _ b hb inf hinf e he hv

theorem mem_parentBits {pc : PrefixCluster} {b : Nat} :
    b ∈ parentBits pc ↔ b < pc.pfx.bits.toNat := by
  simp [parentBits]

theorem parentBits_pairwise (pc : PrefixCluster) :
    (parentBits pc).Pairwise (· > ·) := by
  unfold parentBits
  rw [List.pairwise_reverse]
  exact List.pairwise_lt_range _

/-- C2 (amended): `mergeParentLabels(lbls, p)` (i) leaves every key already
present in `lbls` bound to its original value, (ii) only adds labels drawn
from strictly shorter (ancestor) prefixes stored in the metadata store,
(iii) binds a key absent from `lbls` to the value of the longest ancestor
defining it (for non-`cidr:` values), (iv) keeps at most one `cidr:`-source
label when `lbls` had at most one, and (v) covers every KEY of every
ancestor's non-`cidr:` flattened labels — the child inherits ancestors'
label keys, not necessarily their values. -/
theorem claim_C2_mergeParentLabels (S : MetadataState) (lbls : Labels)
    (pc : PrefixCluster) :
    (∀ k, (lbls.lookupKey k).isSome →
      (mergeParentLabels S lbls pc).lookupKey k = lbls.lookupKey k) ∧
    (∀ e ∈ mergeParentLabels S lbls pc, e ∈ lbls ∨
      ∃ b < pc.pfx.bits.toNat, ∃ inf,
        getLocked S (parentAt pc b) = some inf ∧ e ∈ inf.toLabels) ∧
    (∀ (k : String) (v : Label) (b : Nat), lbls.lookupKey k = none →
      b < pc.pfx.bits.toNat → ancestorLabelAt S pc b k = some v →
      v.source ≠ cidrSource →
      (∀ b', b < b' → b' < pc.pfx.bits.toNat →
        ancestorLabelAt S pc b' k = none) →
      (mergeParentLabels S lbls pc).lookupKey k = some v) ∧
    (cidrCount lbls ≤ 1 → cidrCount (mergeParentLabels S lbls pc) ≤ 1) ∧
    (∀ b < pc.pfx.bits.toNat, ∀ inf,
      getLocked S (parentAt pc b) = some inf →
      ∀ e ∈ inf.toLabels, e.source ≠ cidrSource →
      (mergeParentLabels S lbls pc).containsKey e.key = true) := by
  refine ⟨?_, ?_, ?_, ?_, ?_⟩
  · intro k h
    exact ancFold_lookup_preserve S pc (parentBits pc) _ k h
  · intro e he
    rcases ancFold_mem S pc (parentBits pc) _ e he with
      h | ⟨b, hb, inf, hinf, hel⟩
    · exact Or.inl h
    · exact Or.inr ⟨b, mem_parentBits.mp hb, inf, hinf, hel⟩
  · intro k v b hk hb hv hvs hnone
    exact ancFold_longest S pc (parentBits pc) (parentBits_pairwise pc) _
      k v b hk (mem_parentBits.mpr hb) hv hvs
      (fun b' hb' hlt => hnone b' hlt (mem_parentBits.mp hb'))
  · intro h
    exact ancFold_cidr_inv S pc (parentBits pc) _ h
      (hasSource_iff_cidrCount lbls)
  · intro b hb inf hinf e he hv
    exact ancFold_cover S pc (parentBits pc) _ b (mem_parentBits.mpr hb)
      inf hinf e he hv

/-- A one-label `k8s`-source contribution from a custom resource. -/
def rK8s (k v : String) : ResourceInfo :=
  ⟨[⟨k, v, "k8s"⟩], "custom-resource", false, none, none, none, none⟩

/-- `10.1.0.0/16` in the local cluster. -/
def pcTen16 : PrefixCluster := ⟨⟨.v4 167837696, 16⟩, 0⟩

/-- `10.1.1.0/24` in the local cluster. -/
def pcTen24 : PrefixCluster := ⟨⟨.v4 167837952, 24⟩, 0⟩

/-- A store in which `10.0.0.0/8` carries `a=b` and `10.1.0.0/16` carries
`a=c`: two ancestors of `10.1.1.0/24` disagreeing on the key `a`. -/
def sC2 : MetadataState :=
  { newMetadata with
    m := [(pcTen8, ⟨[("r", rK8s "a" "b")], none⟩),
          (pcTen16, ⟨[("r", rK8s "a" "c")], none⟩)],
    tries := [(0, pcTen8.pfx), (0, pcTen16.pfx)] }

/-- C2 counterexample: the child's merged labels are NOT a superset of each
ancestor's non-cidr flattened labels — the `/8` ancestor's label `a=b` is
dropped in favour of the longer `/16` ancestor's `a=c`; only the key
survives. -/
theorem claim_C2_counterexample :
    getLocked sC2 (parentAt pcTen24 8) = some (rK8s "a" "b") ∧
    (⟨"a", "b", "k8s"⟩ : Label).source ≠ cidrSource ∧
    (⟨"a", "b", "k8s"⟩ : Label) ∈ (rK8s "a" "b").toLabels ∧
    (⟨"a", "b", "k8s"⟩ : Label) ∉ mergeParentLabels sC2 [] pcTen24 ∧
    (mergeParentLabels sC2 [] pcTen24).lookupKey "a" =
      some ⟨"a", "c", "k8s"⟩ := by decide

/-- Witness for C2's amended statement at the concrete two-ancestor store. -/
theorem claim_C2_witness :
    (mergeParentLabels sC2 ([] : Labels) pcTen24).lookupKey "a" =
      some ⟨"a", "c", "k8s"⟩ ∧
    (mergeParentLabels sC2 ([⟨"x", "y", "k8s"⟩] : Labels)
      pcTen24).lookupKey "x" = some ⟨"x", "y", "k8s"⟩ ∧
    cidrCount (mergeParentLabels sC2 ([] : Labels) pcTen24) ≤ 1 ∧
    (mergeParentLabels sC2 ([] : Labels) pcTen24).containsKey "a" = true := by
  obtain ⟨-, -, hC, hD, hE⟩ := claim_C2_mergeParentLabels sC2 [] pcTen24
  obtain ⟨hA2, -, -, -, -⟩ :=
    claim_C2_mergeParentLabels sC2 [⟨"x", "y", "k8s"⟩] pcTen24
  refine ⟨?_, ?_, ?_, ?_⟩
  · exact hC "a" ⟨"a", "c", "k8s"⟩ 16 (by decide) (by decide) (by decide)
      (by decide) (fun b' h1 h2 => by
        have h2b : b' < 24 := h2
        clear h2
        interval_cases b' <;> decide)
  · rw [hA2 "x" (by decide)]
    decide
  · exact hD (by decide)
  · exact hE 8 (by decide) (rK8s "a" "b") (by decide) ⟨"a", "b", "k8s"⟩
      (by decide) (by decide)

/-! ## Claim C3: `resolveIdentity` and the reserved-host merge path -/

/-- `identity.ReservedIdentityHost`: the fixed numeric host identity. -/
def ReservedIdentityHost : Nat := 1

/-- Model of `identity.Identity`: the numeric ID, its labels, and the CIDR
label attached to world-labelled prefixes. -/
structure Identity where
  id : Nat
  labels : Labels
  cidrLabel : Labels
deriving DecidableEq, Repr

/-- Modelled from the spec: `labels.NewFrom(LabelHost)` — the fresh
aggregate seeded with the single `reserved:host` label. -/
def labelHostSet : Labels := [labelHost]

/-- `updateReservedHostLabels` (metadata.go): add/replace (or delete, when
the labels are nil) this prefix's contribution in the reserved-host label
map, aggregate all recorded label sets on top of `reserved:host`, and
return the fixed host identity carrying the merged labels
(`identity.AddReservedIdentityWithLabels` is modelled from the spec as
returning the fixed-ID identity with the supplied labels). -/
def updateReservedHostLabels (rhl : List (IPPrefix × Labels))
    (p : IPPrefix) (olbls : Option Labels) :
    List (IPPrefix × Labels) × Identity :=
  let rhl2 := match olbls with
    | none => aerase rhl p
    | some l => aset rhl p l
  let newLabels := (rhl2.map (fun e => e.2)).foldl Labels.mergeLabels
    labelHostSet
  (rhl2, ⟨ReservedIdentityHost, newLabels, []⟩)

/-- The outcome of `resolveIdentity`: the returned identity, the `isNew`
flag, whether the local identity allocator was invoked, and the updated
reserved-host label map. -/
structure ResolveResult where
  ident : Identity
  isNew : Bool
  usedAllocator : Bool
  reservedHostLabels : List (IPPrefix × Labels)
deriving DecidableEq, Repr

/-- `resolveIdentity` (metadata.go): an identity override allocates
directly from the flattened labels; otherwise parent labels are merged and
the label invariants applied, and a `clusterID == 0` prefix whose labels
carry `reserved:host` takes the reserved-host merge path (fixed identity,
`isNew = false`, no allocator call); any other prefix is allocated from the
allocator, world-labelled prefixes being tagged with a `cidr:<prefix>`
label. -/
def resolveIdentity (cfg : Config)
    (alloc : Labels → Nat → Identity × Bool) (S : MetadataState)
    (pc : PrefixCluster) (info : ResourceInfo) : ResolveResult :=
  if info.identityOverride then
    let out := alloc info.toLabels 0
    ⟨out.1, out.2, true, S.reservedHostLabels⟩
  else
    let lbls := mergeParentLabels S info.toLabels pc
    let lbls2 := resolveLabels cfg lbls pc
    if pc.clusterID = 0 ∧ lbls2.hasHostLabel then
      let out := updateReservedHostLabels S.reservedHostLabels pc.pfx
        (some lbls2)
      ⟨out.2, false, false, out.1⟩
    else
      let out := alloc lbls2 (info.requestedIdentity.getD 0)
      let id2 := if lbls2.hasWorldLabel then
          { out.1 with cidrLabel := getCIDRLabels pc.pfx }
        else out.1
      ⟨id2, out.2, true, S.reservedHostLabels⟩

theorem mergeLabels_contains_mono (from_ : Labels) :
    ∀ (l : Labels) (k : String), l.containsKey k = true →
      (l.mergeLabels from_).containsKey k = true := by
  induction from_ with
  | nil => intro l k h; exact h
  | cons a t ih =>
    intro l k h
    exact ih _ k (Labels.containsKey_setLabel_of l a h)

theorem mergeLabels_contains_new (from_ : Labels) :
    ∀ (l : Labels) (e : Label), e ∈ from_ →
      (l.mergeLabels from_).containsKey e.key = true := by
  induction from_ with
  | nil => intro l e h; simp at h
  | cons a t ih =>
    intro l e he
    rcases List.mem_cons.mp he with rfl | he
    · exact mergeLabels_contains_mono t _ _ (containsKey_setLabel_self l e)
    · exact ih _ e he

theorem hostFold_contains_mono (lss : List Labels) :
    ∀ (acc : Labels) (k : String), acc.containsKey k = true →
      (lss.foldl Labels.mergeLabels acc).containsKey k = true := by
  induction lss with
  | nil => intro acc k h; exact h
  | cons a t ih =>
    intro acc k h
    exact ih _ k (mergeLabels_contains_mono a acc k h)

theorem hostFold_contains_new (lss : List Labels) :
    ∀ (acc : Labels) (ls : Labels), ls ∈ lss → ∀ e ∈ ls,
      (lss.foldl Labels.mergeLabels acc).containsKey e.key = true := by
  induction lss with
  | nil => intro acc ls h; simp at h
  | cons a t ih =>
    intro acc ls hls e he
    rcases List.mem_cons.mp hls with rfl | hls
    · exact hostFold_contains_mono t _ _
        (mergeLabels_contains_new ls acc e he)
    · exact ih _ ls hls e he

/-- C3: for a `clusterID == 0` prefix whose resolved labels carry
`reserved:host` and whose info does not set an identity override,
`resolveIdentity` returns the fixed reserved host identity with
`isNew = false`, never invokes the allocator (the result is independent of
it), records this prefix's resolved labels in the reserved-host map, and
the returned identity's labels are the aggregate of `reserved:host` with
all recorded label sets — containing `reserved:host` and every recorded
key, including this prefix's contribution. -/
theorem claim_C3_reserved_host (cfg : Config)
    (alloc : Labels → Nat → Identity × Bool) (S : MetadataState)
    (pc : PrefixCluster) (info : ResourceInfo)
    (h0 : pc.clusterID = 0) (hov : info.identityOverride = false)
    (hh : (resolveLabels cfg (mergeParentLabels S info.toLabels pc)
      pc).hasHostLabel = true) :
    (resolveIdentity cfg alloc S pc info).ident.id = ReservedIdentityHost ∧
    (resolveIdentity cfg alloc S pc info).isNew = false ∧
    (resolveIdentity cfg alloc S pc info).usedAllocator = false ∧
    (∀ alloc', resolveIdentity cfg alloc' S pc info =
      resolveIdentity cfg alloc S pc info) ∧
    alookup (resolveIdentity cfg alloc S pc info).reservedHostLabels pc.pfx =
      some (resolveLabels cfg (mergeParentLabels S info.toLabels pc) pc) ∧
    (resolveIdentity cfg alloc S pc info).ident.labels =
      (((resolveIdentity cfg alloc S pc info).reservedHostLabels.map
        (fun e => e.2)).foldl Labels.mergeLabels labelHostSet) ∧
    (resolveIdentity cfg alloc S pc info).ident.labels.containsKey "host" =
      true ∧
    (∀ pr ls, (pr, ls) ∈
        (resolveIdentity cfg alloc S pc info).reservedHostLabels →
      ∀ e ∈ ls,
        (resolveIdentity cfg alloc S pc info).ident.labels.containsKey
          e.key = true) := by
  have hres : resolveIdentity cfg alloc S pc info =
      ⟨(updateReservedHostLabels S.reservedHostLabels pc.pfx
          (some (resolveLabels cfg (mergeParentLabels S info.toLabels pc)
            pc))).2, false, false,
        (updateReservedHostLabels S.reservedHostLabels pc.pfx
          (some (resolveLabels cfg (mergeParentLabels S info.toLabels pc)
            pc))).1⟩ := by
    unfold resolveIdentity
    rw [if_neg (by simp [hov]), if_pos ⟨h0, hh⟩]
  rw [hres]
  refine ⟨rfl, rfl, rfl, ?_, ?_, rfl, ?_, ?_⟩
  · intro alloc'
    unfold resolveIdentity
    rw [if_neg (by simp [hov]), if_pos ⟨h0, hh⟩]
  · exact alookup_aset_self _ _ _
  · exact hostFold_contains_mono _ _ _ (by decide)
  · intro pr ls hmem e he
    exact hostFold_contains_new _ _ ls (List.mem_map.mpr ⟨(pr, ls), hmem, rfl⟩)
      e he

/-- A dummy allocator handing out identity 99. -/
def allocA : Labels → Nat → Identity × Bool := fun l _ => (⟨99, l, []⟩, true)

/-- A second dummy allocator, to witness allocator-independence. -/
def allocB : Labels → Nat → Identity × Bool := fun _ _ => (⟨7, [], []⟩, false)

/-- The host prefix `192.168.1.1/32` in the local cluster. -/
def pcHost : PrefixCluster := ⟨⟨.v4 3232235777, 32⟩, 0⟩

/-- A local contribution carrying `reserved:host`. -/
def infoHost : ResourceInfo :=
  ⟨[labelHost], "local", false, none, none, none, none⟩

/-- A store that already records host labels for `10.0.0.1/32`. -/
def sC3 : MetadataState :=
  { newMetadata with
    reservedHostLabels := [(⟨.v4 167772161, 32⟩,
      [labelHost, ⟨"n", "1", "k8s"⟩])] }

/-- Witness for C3 at the concrete host prefix and store. -/
theorem claim_C3_witness :
    (resolveIdentity cfgDual allocA sC3 pcHost infoHost).ident.id =
      ReservedIdentityHost ∧
    (resolveIdentity cfgDual allocA sC3 pcHost infoHost).isNew = false ∧
    (resolveIdentity cfgDual allocA sC3 pcHost infoHost).usedAllocator =
      false ∧
    resolveIdentity cfgDual allocB sC3 pcHost infoHost =
      resolveIdentity cfgDual allocA sC3 pcHost infoHost ∧
    (resolveIdentity cfgDual allocA sC3 pcHost
      infoHost).ident.labels.containsKey "host" = true := by
  obtain ⟨h1, h2, h3, h4, h5, h6, h7, h8⟩ :=
    claim_C3_reserved_host cfgDual allocA sC3 pcHost infoHost (by decide)
      (by decide) (by decide)
  exact ⟨h1, h2, h3, h4 allocB, h7⟩

/-! ## Claim C9: `RemoveLabelsExcluded` and the kube-apiserver special case
(metadata.go) -/

/-- Byte-wise lexicographic order on character lists, the order in which
`Labels.SortedList` sorts the keys. -/
def charsLE : List Char → List Char → Bool
  | [], _ => true
  | _ :: _, [] => false
  | a :: as, b :: bs =>
    if a < b then true
    else if b < a then false
    else charsLE as bs

/-- Ordering of labels by key, as used by `Labels.SortedList`. -/
def labelKeyLE (a b : Label) : Bool := charsLE a.key.data b.key.data

/-- Modelled from the spec: `Labels.SortedList` — serialize the labels as
`source:key=value;` entries sorted by key. -/
def sortedList (l : Labels) : String :=
  String.join ((sortByBefore labelKeyLE l).map
    (fun e => e.source ++ ":" ++ e.key ++ "=" ++ e.value ++ ";"))

/-- Prefix test on character lists (the needle starts the haystack),
standing in for the byte comparison underlying `bytes.Contains`. -/
def charsPre (needle hay : List Char) : Bool :=
  match needle, hay with
  | [], _ => true
  | _ :: _, [] => false
  | a :: as, b :: bs => a == b && charsPre as bs

/-- Substring test on character lists, `bytes.Contains(hay, needle)`. -/
def charsSub (needle : List Char) : List Char → Bool
  | [] => needle.isEmpty
  | c :: rest => charsPre needle (c :: rest) || charsSub needle rest

/-- The flattened labels of a stored prefix, `getLocked(ip).ToLabels()`;
empty when the prefix has no entry (nil receiver). -/
def getLabelsLocked (S : MetadataState) (pc : PrefixCluster) : Labels :=
  match getLocked S pc with
  | some f => f.toLabels
  | none => []

/-- `filterByLabels` (metadata.go): the stored prefixes whose serialized
flattened label list contains the serialized filter as a byte substring. -/
def filterByLabels (S : MetadataState) (filter : Labels) :
    List PrefixCluster :=
  (S.m.map (fun e => e.1)).filter
    (fun pc => charsSub (sortedList filter).data
      (sortedList (getLabelsLocked S pc)).data)

/-- `appendAPIServerLabelsForDeletion` (metadata.go): when the prefix's
current flattened labels have the kube-apiserver label, have the world
label, and consist of exactly two entries, merge `world` into the labels
to delete (mutating the caller's shared map). -/
def appendAPIServerLabelsForDeletion (lbls currentLabels : Labels) :
    Labels :=
  if currentLabels.hasKubeAPIServerLabel && currentLabels.hasWorldLabel &&
      (currentLabels.size == 2) then
    lbls.mergeLabels [labelWorld]
  else lbls

/-- The guard of `appendAPIServerLabelsForDeletion`, as a predicate on the
prefix's current flattened labels. -/
def condC9 (cur : Labels) : Bool :=
  cur.hasKubeAPIServerLabel && cur.hasWorldLabel && (cur.size == 2)

/-- The loop of `RemoveLabelsExcluded` (metadata.go), with the threading of
the shared, mutated `lbls` map made explicit: for each matching prefix not
excluded, compute the removal set via `appendAPIServerLabelsForDeletion`
(which replaces `lbls` for the rest of the loop) and `remove` it.  Returns
the final state, the final `lbls` value, the accumulated affected prefixes,
and a trace recording for each processed prefix its current flattened
labels and the removal set used. -/
def rlxRun (rid : String) (excl : List PrefixCluster) :
    List PrefixCluster → MetadataState → Labels →
    MetadataState × Labels × List PrefixCluster ×
      List (PrefixCluster × Labels × Labels)
  | [], S, lbls => (S, lbls, [], [])
  | ip :: rest, S, lbls =>
    if ip ∈ excl then rlxRun rid excl rest S lbls
    else
      let prefixLabels := getLabelsLocked S ip
      let lblsToRemove := appendAPIServerLabelsForDeletion lbls prefixLabels
      let out := remove S ip rid [.lbls lblsToRemove]
      let r2 := rlxRun rid excl rest out.1 lblsToRemove
      (r2.1, r2.2.1, out.2 ++ r2.2.2.1,
        (ip, prefixLabels, lblsToRemove) :: r2.2.2.2)

/-- `RemoveLabelsExcluded` (metadata.go): remove `lbls` from every stored
prefix whose labels match them, except the excluded ones, with the
kube-apiserver special case applied to the removal set; enqueues all
affected prefixes. -/
def removeLabelsExcluded (S : MetadataState) (lbls : Labels)
    (excl : List PrefixCluster) (rid : String) : MetadataState :=
  (enqueuePrefixUpdates (rlxRun rid excl (filterByLabels S lbls) S lbls).1
    (rlxRun rid excl (filterByLabels S lbls) S lbls).2.2.1).1

/-- The per-prefix removal-set trace of `RemoveLabelsExcluded`: the
processed prefixes in order, each with its current flattened labels and the
removal set passed to `remove`. -/
def removalTrace (S : MetadataState) (lbls : Labels)
    (excl : List PrefixCluster) (rid : String) :
    List (PrefixCluster × Labels × Labels) :=
  (rlxRun rid excl (filterByLabels S lbls) S lbls).2.2.2

/-! ### Setting the same label twice is absorbed -/

theorem setLabel_of_contains {l : Labels} {x : Label}
    (hc : l.containsKey x.key = true) :
    l.setLabel x = l.map (fun e => if e.key = x.key then x else e) := by
  unfold Labels.setLabel
  rw [if_pos hc]

theorem mem_setLabel_key_eq {l : Labels} {x e : Label}
    (he : e ∈ l.setLabel x) (hk : e.key = x.key) : e = x := by
  unfold Labels.setLabel at he
  by_cases hc : l.containsKey x.key = true
  · rw [if_pos hc] at he
    obtain ⟨a, ha, hfa⟩ := List.mem_map.mp he
    by_cases hak : a.key = x.key
    · rw [if_pos hak] at hfa
      exact hfa.symm
    · rw [if_neg hak] at hfa
      subst hfa
      exact absurd hk hak
  · rw [if_neg hc] at he
    rcases List.mem_append.mp he with h1 | h1
    · exact absurd (hk ▸ Labels.containsKey_of_mem h1) hc
    · simpa using h1

theorem setLabel_setLabel (l : Labels) (x : Label) :
    (l.setLabel x).setLabel x = l.setLabel x := by
  rw [setLabel_of_contains (containsKey_setLabel_self l x)]
  apply map_eq_self_of
  intro e he
  by_cases hk : e.key = x.key
  · rw [if_pos hk, mem_setLabel_key_eq he hk]
  · rw [if_neg hk]

theorem mergeLabels_single_idem (l : Labels) (x : Label) :
    (l.mergeLabels [x]).mergeLabels [x] = l.mergeLabels [x] :=
  setLabel_setLabel l x

/-! ### Characterising the removal sets along the trace -/

theorem appendAPI_eq (lbls cur : Labels) :
    appendAPIServerLabelsForDeletion lbls cur =
      (if condC9 cur then lbls.mergeLabels [labelWorld] else lbls) := rfl

/-- The removal set recorded at position `i` of a trace is the caller's
label set, with `world` merged in exactly when some prefix at position
`≤ i` satisfied the kube-apiserver guard (or the guard had already fired
before this trace, flag `fired`). -/
def traceOK (lbls0 : Labels)
    (tr : List (PrefixCluster × Labels × Labels)) (fired : Bool) : Prop :=
  ∀ i (h : i < tr.length),
    (tr.get ⟨i, h⟩).2.2 =
      (if fired || (tr.take (i + 1)).any (fun e => condC9 e.2.1)
        then lbls0.mergeLabels [labelWorld] else lbls0)

theorem traceOK_cons (lbls0 : Labels) (p : PrefixCluster) (cur : Labels)
    (fired : Bool) {tr : List (PrefixCluster × Labels × Labels)}
    (h : traceOK lbls0 tr (fired || condC9 cur)) :
    traceOK lbls0
      ((p, cur,
        if fired || condC9 cur then lbls0.mergeLabels [labelWorld]
        else lbls0) :: tr) fired := by
  intro i hi
  cases i with
  | zero =>
    simp only [List.take_succ_cons, List.take_zero, List.any_cons,
      List.any_nil, Bool.or_false]
    rfl
  | succ i =>
    have hi' : i < tr.length := Nat.lt_of_succ_lt_succ (by simpa using hi)
    have h2 := h i hi'
    rw [Bool.or_assoc] at h2
    exact h2

theorem rlxRun_traceOK (rid : String) (excl : List PrefixCluster)
    (lbls0 : Labels) (ips : List PrefixCluster) :
    ∀ (S : MetadataState) (fired : Bool),
      traceOK lbls0
        ((rlxRun rid excl ips S
          (if fired then lbls0.mergeLabels [labelWorld]
            else lbls0)).2.2.2)
        fired := by
  induction ips with
  | nil =>
    intro S fired i h
    simp [rlxRun] at h
  | cons ip rest ih =>
    intro S fired
    simp only [rlxRun]
    by_cases hex : ip ∈ excl
    · rw [if_pos hex]
      exact ih S fired
    · rw [if_neg hex]
      have hA : appendAPIServerLabelsForDeletion
          (if fired then lbls0.mergeLabels [labelWorld] else lbls0)
          (getLabelsLocked S ip) =
          (if fired || condC9 (getLabelsLocked S ip) then
            lbls0.mergeLabels [labelWorld] else lbls0) := by
        rw [appendAPI_eq]
        cases hcc : condC9 (getLabelsLocked S ip) <;> cases fired <;>
          simp [mergeLabels_single_idem]
      rw [hA]
      exact traceOK_cons lbls0 ip (getLabelsLocked S ip) fired
        (ih _ (fired || condC9 (getLabelsLocked S ip)))

/-! ### The counterexample: carry-over of the merged world label -/

/-- An extra `k8s` label distinguishing the second prefix. -/
def lblExtra : Label := ⟨"extra", "", "k8s"⟩

/-- A contribution carrying exactly the kube-apiserver and world labels. -/
def infoC9a : ResourceInfo :=
  ⟨[labelKubeAPIServer, labelWorld], "kube-apiserver", false, none, none,
    none, none⟩

/-- A contribution carrying the two labels plus an extra one. -/
def infoC9b : ResourceInfo :=
  ⟨[labelKubeAPIServer, labelWorld, lblExtra], "kube-apiserver", false,
    none, none, none, none⟩

/-- The prefix `1.1.1.1/32` in the local cluster. -/
def pcC9a : PrefixCluster := ⟨⟨.v4 16843009, 32⟩, 0⟩

/-- The prefix `2.2.2.2/32` in the local cluster. -/
def pcC9b : PrefixCluster := ⟨⟨.v4 33686018, 32⟩, 0⟩

/-- A store where `1.1.1.1/32` has exactly the kube-apiserver and world
labels and `2.2.2.2/32` additionally has an extra label. -/
def sC9 : MetadataState :=
  { newMetadata with
    m := [(pcC9a, ⟨[("rA", infoC9a)], none⟩),
          (pcC9b, ⟨[("rA", infoC9b)], none⟩)],
    tries := [(0, pcC9a.pfx), (0, pcC9b.pfx)] }

/-- Counterexample to claim C9: removing the kube-apiserver label with
`RemoveLabelsExcluded` from a store where `1.1.1.1/32` carries exactly
{kube-apiserver, world} and `2.2.2.2/32` carries those two plus an extra
label.  The guard fires for the first prefix and merges `world` into the
shared removal map; the second prefix has an additional label, so per the
claim only the caller-supplied kube-apiserver label should be removed from
it — yet its recorded removal set also contains `world`, carried over from
the first prefix. -/
theorem claim_C9_counterexample :
    removalTrace sC9 [labelKubeAPIServer] [] "rA" =
      [(pcC9a, [labelKubeAPIServer, labelWorld],
          [labelKubeAPIServer, labelWorld]),
       (pcC9b, [labelKubeAPIServer, labelWorld, lblExtra],
          [labelKubeAPIServer, labelWorld])] ∧
    ¬ (Labels.size [labelKubeAPIServer, labelWorld, lblExtra] = 2) ∧
    Labels.containsKey [labelKubeAPIServer] "world" = false ∧
    labelWorld ∈ ([labelKubeAPIServer, labelWorld] : Labels) := by
  decide

/-- Claim C9 (amended): during `RemoveLabelsExcluded`, the removal set used
for the `i`-th processed prefix is the caller-supplied label set with
`reserved:world` merged in if and only if some prefix processed at or
before position `i` had current flattened labels containing the
kube-apiserver label, containing the world label, and consisting of
exactly those two — once the guard fires, the merged `world` label sticks
in the shared removal map for every later prefix, even those with
additional labels. -/
theorem claim_C9_removal_sets (S : MetadataState) (lbls0 : Labels)
    (excl : List PrefixCluster) (rid : String) :
    ∀ i (h : i < (removalTrace S lbls0 excl rid).length),
      ((removalTrace S lbls0 excl rid).get ⟨i, h⟩).2.2 =
        (if ((removalTrace S lbls0 excl rid).take (i + 1)).any
            (fun e => condC9 e.2.1)
          then lbls0.mergeLabels [labelWorld] else lbls0) := by
  intro i h
  exact rlxRun_traceOK rid excl lbls0 (filterByLabels S lbls0) S false i h

/-- Witness for C9: on the concrete store, the removal set recorded for the
second processed prefix is the caller's set merged with `world`. -/
theorem claim_C9_witness :
    ((removalTrace sC9 [labelKubeAPIServer] [] "rA").get
        ⟨1, by decide⟩).2.2 =
      Labels.mergeLabels [labelKubeAPIServer] [labelWorld] := by
  have h := claim_C9_removal_sets sC9 [labelKubeAPIServer] [] "rA" 1
    (by decide)
  exact h.trans (by decide)

end IPCacheMeta
